import Mathlib

/-!
Shallow embedding of `cc0::dict` from `dict.h` (SirJonthe/dict).

The C++ container is a radix-256 trie over the byte image of the key:
  * a `table` has 256 tagged slots (`NIL`/`FREE`/`VAL`/`TAB`) plus a `refs`
    counter;
  * an `entry` is a key/value record plus a `refs` counter;
  * both live in growable pools (`dict::array`) addressed by stable indices.

Modelling decisions (each mirrors the source, not the spec):
  * A key is its byte image: a `List Nat` of length `K = sizeof(key_t)`
    whose elements are below 256.  `bytes k i` is `bytes(k)[i]`, and `cmp`
    compares exactly `K` byte positions, as the source loop does.
  * A table's 256-slot index array is a total function `Nat → Slot`; only
    positions below 256 are ever read or written because key bytes are
    below 256.
  * `dict::array<T>` is `Arr`: the allocated buffer is a `List` whose
    length is `m_pool`; cells beyond `m_size` model the default-initialized
    (or stale, after shrinking) storage of `new T[n]`.
  * The recursive member functions (`lookup`, `lookup_or_alloc`, `alloc`,
    `remove`, `prof_lookup`) take an explicit fuel argument because on
    arbitrary states the C++ recursion is not structurally bounded; the
    public entry points run them with fuel `K`, and the development proves
    that on well-formed states any fuel `≥ K` computes the same result
    (the recursion depth is at most `K`).
  * `uint64_t` counters are `Nat`; the `--`/`++` updates use truncated
    subtraction / plain successor.  The well-formedness invariant shows the
    decrements never apply to `0` on reachable states, so wrap-around is
    unreachable and the simplification is faithful there.
-/

namespace CC0

/-- Slot tag (the anonymous enum in `dict::index`). -/
inductive Tag where
  | NIL
  | FREE
  | VAL
  | TAB
deriving DecidableEq

/-- `dict::index`: a tagged index into the entry pool or the table pool. -/
structure Slot where
  tag : Tag
  idx : Nat
deriving DecidableEq

/-- The `{ index::NIL, 0 }` value `init_table` writes into every slot. -/
def nilSlot : Slot := ⟨Tag.NIL, 0⟩

/-- Point update of a slot array (`t.idx[b] = s`). -/
def updFn (f : Nat → Slot) (b : Nat) (s : Slot) : Nat → Slot :=
  fun x => if x = b then s else f x

/-- `dict::table`: 256 tagged slots plus the `refs` counter. -/
structure Table where
  idx : Nat → Slot
  refs : Nat

/-- `dict::entry`: full key, value, `refs` counter. -/
structure Entry (ν : Type) where
  k : List Nat
  v : ν
  refs : Nat

/-- `dict::array<T>`: `buf` is the allocated buffer (`m_pool` cells, so
`buf.length` plays the role of `m_pool`), `size` is `m_size`, `growth` is
`m_growth`.  Cells of `buf` at positions `≥ size` model allocated-but-unused
storage, including stale contents left behind by shrinking. -/
structure Arr (α : Type) where
  buf : List α
  size : Nat
  growth : Nat

namespace Arr

/-- `array(growth)`: empty buffer, growth clamped to at least 1. -/
def new (growth : Nat) : Arr α := ⟨[], 0, if 0 < growth then growth else 1⟩

/-- `pool_size()` (`m_pool`). -/
def pool_size (a : Arr α) : Nat := a.buf.length

/-- `resize_pool(n)`: grow the buffer to `n` cells if needed (copying the
first `min(m_size, n)` cells, fresh cells default-initialized to `d0`), and
truncate `m_size` to `min(m_size, n)`. -/
def resize_pool (a : Arr α) (d0 : α) (n : Nat) : Arr α :=
  let m := Nat.min a.size n
  if a.buf.length < n then
    ⟨a.buf.take m ++ List.replicate (n - m) d0, m, a.growth⟩
  else
    ⟨a.buf, m, a.growth⟩

/-- `resize(n)`: reallocate if `n` exceeds the pool, then set `m_size = n`. -/
def resize (a : Arr α) (d0 : α) (n : Nat) : Arr α :=
  if a.buf.length < n then
    let m := Nat.min a.size n
    ⟨a.buf.take m ++ List.replicate (n - m) d0, n, a.growth⟩
  else
    ⟨a.buf, n, a.growth⟩

/-- `add()`: grow by `m_growth` when full, then hand out the cell at the old
`m_size` (returned as the second component) and increment `m_size`. -/
def add (a : Arr α) (d0 : α) : Arr α × Nat :=
  let a1 := if a.buf.length ≤ a.size then a.resize_pool d0 (a.size + a.growth) else a
  (⟨a1.buf, a1.size + 1, a1.growth⟩, a1.size)

/-- `operator[]` (read).  Out-of-range access is undefined behaviour in the
source; the model returns `d0` there. -/
def get (a : Arr α) (d0 : α) (i : Nat) : α := a.buf.getD i d0

/-- `operator[]` (write).  Out-of-range access is undefined behaviour in the
source; the model leaves the buffer unchanged there. -/
def set (a : Arr α) (i : Nat) (x : α) : Arr α := ⟨a.buf.set i x, a.size, a.growth⟩

/-- The element-wise copy loop `for (i = 0; i < m_size; ++i) m_vals[i] = a.m_vals[i]`
shared by the array copy constructor and `operator=`. -/
def copyLoop (dst : Arr α) (src : Arr α) (d0 : α) : Nat → Arr α
  | 0 => dst
  | n + 1 => (dst.copyLoop src d0 n).set n (src.get d0 n)

/-- The array copy constructor: it delegates to `array()` — so the growth
step is reset to the default 1 — then `resize_pool(a.m_pool)`,
`resize(a.m_size)` and the element-wise copy loop. -/
def copy (a : Arr α) (d0 : α) : Arr α :=
  ((Arr.new 1).resize_pool d0 a.buf.length |>.resize d0 a.size).copyLoop a d0 a.size

/-- The body of the array `operator=` (the source guards it with an address
self-test `&a != this`; on distinct objects this body runs, and the model's
self-application is proved to be the identity where the source's guard makes
it one). -/
def assign (dst src : Arr α) (d0 : α) : Arr α :=
  ((dst.resize_pool d0 src.buf.length).resize d0 src.size).copyLoop src d0 src.size

end Arr

/-- `NUM_ENTRIES_IN_TABLE = uint64_t(uint8_t(-1)) + 1 = 256`. -/
def NUM_ENTRIES_IN_TABLE : Nat := 256

/-- A table as produced by `init_table`: every slot `{NIL, 0}`, `refs = 0`.
(`new table[n]` leaves tables uninitialized in the source, but every table
handed out by `m_tabs.add()` is passed through `init_table` before use, so
this is also used as the buffer default.) -/
def init_table : Table := ⟨fun _ => nilSlot, 0⟩

/-- Buffer default for the table pool (see `init_table`). -/
def table0 : Table := init_table

/-- Buffer default for the entry pool: the default-initialized
`entry` cell, with `d0v` standing for the default value of `value_t`. -/
def entry0 {ν : Type} (d0v : ν) : Entry ν := ⟨[], d0v, 0⟩

/-- The dictionary state: entry pool (`m_vals`), table pool (`m_tabs`),
element count (`m_size`). -/
structure Dict (ν : Type) where
  m_vals : Arr (Entry ν)
  m_tabs : Arr Table
  m_size : Nat

/-- `bytes(k)[i]`: byte `i` of the key's byte image. -/
def bytes (k : List Nat) (i : Nat) : Nat := k.getD i 0

/-- `cmp(a, b)`: bytewise equality over exactly `K = sizeof(key_t)` bytes. -/
def cmp (K : Nat) (a b : List Nat) : Bool :=
  decide (∀ i, i < K → bytes a i = bytes b i)

/-- A well-formed byte image of a `key_t`: exactly `K` bytes, each below 256. -/
def KeyWF (K : Nat) (k : List Nat) : Prop :=
  k.length = K ∧ ∀ b ∈ k, b < 256

instance (K : Nat) (k : List Nat) : Decidable (KeyWF K k) := by
  unfold KeyWF; infer_instance

/-- Table `ti` of the pool (`m_tabs[ti]`). -/
def tabAt {ν : Type} (d : Dict ν) (ti : Nat) : Table := d.m_tabs.get table0 ti

/-- Slot `b` of table `ti` (`m_tabs[ti].idx[b]`). -/
def slotAt {ν : Type} (d : Dict ν) (ti b : Nat) : Slot := (tabAt d ti).idx b

/-- Entry `e` of the pool (`m_vals[e]`). -/
def entAt {ν : Type} (d0v : ν) (d : Dict ν) (e : Nat) : Entry ν :=
  d.m_vals.get (entry0 d0v) e

/-- `dict()`: entry pool with growth step 256, table pool with growth step
16, one root table passed through `init_table`, `m_size = 0`. -/
def dictNew {ν : Type} : Dict ν :=
  let q := (Arr.new (α := Table) 16).add table0
  ⟨Arr.new 256, q.1.set q.2 init_table, 0⟩

section Ops

variable {ν : Type} (K : Nat) (d0v : ν)

/-- `dict::lookup(t, k, level)` with explicit fuel; table passed by pool
index (the source passes `m_tabs[i.index]` by reference). -/
def lookupF (d : Dict ν) : Nat → Nat → List Nat → Nat → Option ν
  | 0, _, _, _ => none
  | Nat.succ fuel, t, k, level =>
    let s := slotAt d t (bytes k level)
    match s.tag with
    | Tag.TAB => lookupF d fuel s.idx k (level + 1)
    | Tag.VAL =>
        if cmp K k ((entAt d0v d s.idx).k) then some ((entAt d0v d s.idx).v) else none
    | _ => none

/-- `dict::prof_lookup(t, k, level)` with explicit fuel. -/
def prof_lookupF (d : Dict ν) : Nat → Nat → List Nat → Nat → Nat
  | 0, _, _, _ => 0
  | Nat.succ fuel, t, k, level =>
    let s := slotAt d t (bytes k level)
    match s.tag with
    | Tag.TAB => prof_lookupF d fuel s.idx k (level + 1)
    | _ => level + 1

/-- `dict::remove(t, k, level)` with explicit fuel: on a matching `VAL`
slot, zero the entry's `refs`, retag the slot `FREE` (payload kept),
decrement the table's `refs` and `m_size`. -/
def removeF : Nat → Dict ν → Nat → List Nat → Nat → Dict ν
  | 0, d, _, _, _ => d
  | Nat.succ fuel, d, t, k, level =>
    let b := bytes k level
    let s := slotAt d t b
    match s.tag with
    | Tag.VAL =>
        if cmp K k ((entAt d0v d s.idx).k) then
          { m_vals := d.m_vals.set s.idx ⟨(entAt d0v d s.idx).k, (entAt d0v d s.idx).v, 0⟩,
            m_tabs := d.m_tabs.set t
              ⟨updFn (tabAt d t).idx b ⟨Tag.FREE, s.idx⟩, (tabAt d t).refs - 1⟩,
            m_size := d.m_size - 1 }
        else d
    | Tag.TAB => removeF fuel d s.idx k (level + 1)
    | _ => d

/-- `dict::alloc(t, k, level)` with explicit fuel.  Returns the new state
and the index of the entry whose value field the returned reference
designates.  On a `VAL` collision: a fresh table is added and initialized,
the occupant slot is moved into it at the occupant key's byte `level + 1`,
the parent slot is retagged `TAB`, the new table's `refs` is set to 1, and
the routine recurses one level deeper.  On `NIL` a fresh entry is appended
and its key field (only) is written; on `FREE` the payload entry index is
reused and neither the key nor the value of the stale entry is rewritten. -/
def allocF : Nat → Dict ν → Nat → List Nat → Nat → Dict ν × Nat
  | 0, d, _, _, _ => (d, 0)
  | Nat.succ fuel, d, t, k, level =>
    let b := bytes k level
    let s := slotAt d t b
    if s.tag = Tag.VAL then
      let ko := (entAt d0v d s.idx).k
      let nt := d.m_tabs.size
      let tabs1 := (d.m_tabs.add table0).1
      let tabs2 := tabs1.set nt ⟨updFn (fun _ => nilSlot) (bytes ko (level + 1)) s, 1⟩
      let parent := tabs2.get table0 t
      let tabs3 := tabs2.set t ⟨updFn parent.idx b ⟨Tag.TAB, nt⟩, parent.refs⟩
      allocF fuel { d with m_tabs := tabs3 } nt k (level + 1)
    else
      let p : Arr (Entry ν) × Nat :=
        if s.tag = Tag.NIL then
          let q := d.m_vals.add (entry0 d0v)
          (q.1.set q.2
            ⟨k, (q.1.get (entry0 d0v) q.2).v, (q.1.get (entry0 d0v) q.2).refs⟩, q.2)
        else (d.m_vals, s.idx)
      let vals2 := p.1.set p.2
        ⟨(p.1.get (entry0 d0v) p.2).k, (p.1.get (entry0 d0v) p.2).v, 1⟩
      ({ m_vals := vals2,
         m_tabs := d.m_tabs.set t
           ⟨updFn (tabAt d t).idx b ⟨Tag.VAL, p.2⟩, (tabAt d t).refs + 1⟩,
         m_size := d.m_size + 1 }, p.2)

/-- `dict::lookup_or_alloc(t, k, level)` with explicit fuel: follow `TAB`
slots; on a matching `VAL` return the existing entry; otherwise delegate to
`alloc` at the current table and level. -/
def lookup_or_allocF : Nat → Dict ν → Nat → List Nat → Nat → Dict ν × Nat
  | 0, d, _, _, _ => (d, 0)
  | Nat.succ fuel, d, t, k, level =>
    let s := slotAt d t (bytes k level)
    match s.tag with
    | Tag.TAB => lookup_or_allocF fuel d s.idx k (level + 1)
    | Tag.VAL =>
        if cmp K k ((entAt d0v d s.idx).k) then (d, s.idx)
        else allocF d0v (Nat.succ fuel) d t k level
    | _ => allocF d0v (Nat.succ fuel) d t k level

/-- `operator[] const` (the non-strict lookup), started at the root with
fuel `K`. -/
def dict_lookup (d : Dict ν) (k : List Nat) : Option ν :=
  lookupF K d0v d K 0 k 0

/-- `insert(key)` / mutable `operator()`: `lookup_or_alloc(0, key, 0)`.
The returned index is the entry whose value field the C++ reference
designates. -/
def dict_insert (d : Dict ν) (k : List Nat) : Dict ν × Nat :=
  lookup_or_allocF K d0v K d 0 k 0

/-- `remove(key)`: `remove(m_tabs.first(), key, 0)`. -/
def dict_remove (d : Dict ν) (k : List Nat) : Dict ν :=
  removeF K d0v K d 0 k 0

/-- The caller assigning `v` through the reference returned by `insert`
(writes only the value field of entry `e`). -/
def dict_assign_val (d : Dict ν) (e : Nat) (v : ν) : Dict ν :=
  { d with m_vals := d.m_vals.set e ⟨(entAt d0v d e).k, v, (entAt d0v d e).refs⟩ }

/-- `size()`. -/
def dict_size (d : Dict ν) : Nat := d.m_size

/-- `table_count()` (the spec's `node_count`). -/
def table_count (d : Dict ν) : Nat := d.m_tabs.size

/-- `allocated_bytes()`, with `esz = sizeof(entry)` and `tsz = sizeof(table)`
as abstract parameters. -/
def allocated_bytes (d : Dict ν) (esz tsz : Nat) : Nat :=
  d.m_vals.pool_size * esz + d.m_tabs.pool_size * tsz

/-- `prof_lookup(key)`: `prof_lookup(m_tabs[0], key, 0)`. -/
def dict_prof_lookup (d : Dict ν) (k : List Nat) : Nat :=
  prof_lookupF d K 0 k 0

/-- The dict copy constructor: member-wise array copy construction (which
resets each array's growth step to 1) plus a copy of `m_size`. -/
def dict_copy (d : Dict ν) : Dict ν :=
  ⟨d.m_vals.copy (entry0 d0v), d.m_tabs.copy table0, d.m_size⟩

/-- The body of dict `operator=` (the source guards it with `&d != this`):
array `operator=` on both pools plus a copy of `m_size`. -/
def dict_assign (dst src : Dict ν) : Dict ν :=
  ⟨dst.m_vals.assign src.m_vals (entry0 d0v), dst.m_tabs.assign src.m_tabs table0, src.m_size⟩

/-- Modelled from the spec: the strict read form (`operator()` on a const
container).  The source member at dict.h:631-635 does not instantiate — its
body calls `lookup(key)` with one argument while every `lookup` overload
takes `(table, key, level)` — so the evidently intended behaviour described
by the spec ("Precondition: key is present", dereference of the non-strict
lookup) is modelled here: the value of the non-strict lookup, with `w` the
arbitrary result of the undefined absent case. -/
def strict_read (d : Dict ν) (k : List Nat) (w : ν) : ν :=
  (dict_lookup K d0v d k).getD w

/-- Number of `VAL` slots in one table. -/
def tabValCount (t : Table) : Nat :=
  (List.range NUM_ENTRIES_IN_TABLE).countP (fun b => decide ((t.idx b).tag = Tag.VAL))

/-- Number of `VAL` slots across all live tables. -/
def valCount (d : Dict ν) : Nat :=
  ((List.range d.m_tabs.size).map (fun ti => tabValCount (tabAt d ti))).sum

/-- Well-formedness of a dictionary state, with `pth` an explicit path map
assigning to every live table its position in the trie (root at `[]`,
the table behind a `TAB` slot `b` of a table at `p` sits at `p ++ [b]`).
Every state reachable from `dictNew` through the public operations
satisfies it (for some `pth`), as the preservation lemmas below show. -/
structure DictWF (K : Nat) (d0v : ν) (d : Dict ν) (pth : Nat → List Nat) : Prop where
  vals_size_le : d.m_vals.size ≤ d.m_vals.buf.length
  tabs_size_le : d.m_tabs.size ≤ d.m_tabs.buf.length
  vals_growth : 1 ≤ d.m_vals.growth
  tabs_growth : 1 ≤ d.m_tabs.growth
  root_live : 1 ≤ d.m_tabs.size
  pth_root : pth 0 = []
  pth_len : ∀ ti, ti < d.m_tabs.size → (pth ti).length < K
  pth_inj : ∀ ti, ti < d.m_tabs.size → ∀ tj, tj < d.m_tabs.size → pth ti = pth tj → ti = tj
  tab_ok : ∀ ti, ti < d.m_tabs.size → ∀ b, b < 256 → (slotAt d ti b).tag = Tag.TAB →
      (slotAt d ti b).idx < d.m_tabs.size ∧ pth ((slotAt d ti b).idx) = pth ti ++ [b]
  val_ok : ∀ ti, ti < d.m_tabs.size → ∀ b, b < 256 → (slotAt d ti b).tag = Tag.VAL →
      (slotAt d ti b).idx < d.m_vals.size ∧
      KeyWF K ((entAt d0v d ((slotAt d ti b).idx)).k) ∧
      ((entAt d0v d ((slotAt d ti b).idx)).k).take ((pth ti).length + 1) = pth ti ++ [b]
  free_ok : ∀ ti, ti < d.m_tabs.size → ∀ b, b < 256 → (slotAt d ti b).tag = Tag.FREE →
      (slotAt d ti b).idx < d.m_vals.size ∧
      KeyWF K ((entAt d0v d ((slotAt d ti b).idx)).k) ∧
      ((entAt d0v d ((slotAt d ti b).idx)).k).take ((pth ti).length + 1) = pth ti ++ [b]
  parent_ok : ∀ tj, tj < d.m_tabs.size → tj ≠ 0 →
      ∃ ti, ti < d.m_tabs.size ∧ ∃ b, b < 256 ∧ slotAt d ti b = ⟨Tag.TAB, tj⟩
  size_ok : d.m_size = valCount d

end Ops

/-- The path map of a freshly constructed dictionary (only the root is
live, at path `[]`). -/
def pth0 : Nat → List Nat := fun _ => []

/- Concrete runs used by the counterexample/bug-witness theorems.
All use `value_t = Nat` with default value 0. -/

/-- Two-byte keys: the state after `insert([0,0])` on a fresh dictionary. -/
def ex2a : Dict Nat := (dict_insert 2 0 dictNew [0, 0]).1

/-- ... after assigning 7 through the reference returned for `[0,0]`. -/
def ex2b : Dict Nat := dict_assign_val 0 ex2a (dict_insert 2 0 dictNew [0, 0]).2 7

/-- ... after `remove([0,0])`. -/
def ex2c : Dict Nat := dict_remove 2 0 ex2b [0, 0]

/-- ... after `insert([0,1])` (which reuses the freed slot on the shared
byte path). -/
def ex2d : Dict Nat := (dict_insert 2 0 ex2c [0, 1]).1

/-- ... after assigning 42 through the reference returned for `[0,1]`. -/
def ex2e : Dict Nat := dict_assign_val 0 ex2d (dict_insert 2 0 ex2c [0, 1]).2 42

/-- Two-byte keys: `insert([0,0])` then `insert([0,1])` — forces a
collision split at the root. -/
def exSplit : Dict Nat := (dict_insert 2 0 ex2a [0, 1]).1

/-- Eight-byte keys: the all-zero key `A` of the spec's scenario 4. -/
def keyA8 : List Nat := [0, 0, 0, 0, 0, 0, 0, 0]

/-- Eight-byte keys: key `B` differing from `A` only in the last byte. -/
def keyB8 : List Nat := [0, 0, 0, 0, 0, 0, 0, 1]

/-- Eight-byte keys: state after `insert(A)` then `insert(B)`. -/
def exAB : Dict Nat := (dict_insert 8 0 (dict_insert 8 0 dictNew keyA8).1 keyB8).1

/-- One-byte keys: a fresh dictionary after `insert([0])`. -/
def exI1 : Dict Nat := (dict_insert 1 0 dictNew [0]).1

/-- One-byte keys: a copy-constructed fresh dictionary after `insert([0])`. -/
def exC1 : Dict Nat := (dict_insert 1 0 (dict_copy 0 dictNew) [0]).1

end CC0

namespace CC0

set_option maxRecDepth 100000

/-! ### Small helper lemmas: slot-array updates and lists -/

theorem updFn_self (f : Nat → Slot) (b : Nat) (s : Slot) : updFn f b s b = s := by
  simp [updFn]

theorem updFn_ne (f : Nat → Slot) (b : Nat) (s : Slot) {x : Nat} (h : x ≠ b) :
    updFn f b s x = f x := by
  simp [updFn, h]

theorem getD_set_self {α : Type} (l : List α) (i : Nat) (x d : α) (h : i < l.length) :
    (l.set i x).getD i d = x := by
  induction l generalizing i with
  | nil => simp at h
  | cons a t ih =>
    cases i with
    | zero => simp
    | succ j => simpa using ih j (by simpa using h)

theorem getD_set_ne {α : Type} (l : List α) (i j : Nat) (x d : α) (h : j ≠ i) :
    (l.set i x).getD j d = l.getD j d := by
  induction l generalizing i j with
  | nil => simp
  | cons a t ih =>
    cases i with
    | zero =>
      cases j with
      | zero => exact absurd rfl h
      | succ j2 => simp
    | succ i2 =>
      cases j with
      | zero => simp
      | succ j2 => simpa using ih i2 j2 (by omega)

theorem getD_take {α : Type} (l : List α) (n i : Nat) (d : α) (h : i < n) :
    (l.take n).getD i d = l.getD i d := by
  induction l generalizing n i with
  | nil => simp
  | cons a t ih =>
    cases n with
    | zero => omega
    | succ m =>
      cases i with
      | zero => simp
      | succ j => simpa using ih m j (by omega)

theorem getD_replicate {α : Type} (x : α) (n i : Nat) : (List.replicate n x).getD i x = x := by
  induction n generalizing i with
  | zero => simp
  | succ m ih =>
    cases i with
    | zero => simp [List.replicate]
    | succ j => simpa [List.replicate] using ih j

theorem take_succ_getD {α : Type} (l : List α) (n : Nat) (d : α) (h : n < l.length) :
    l.take (n + 1) = l.take n ++ [l.getD n d] := by
  induction l generalizing n with
  | nil => simp at h
  | cons a t ih =>
    cases n with
    | zero => simp
    | succ m => simpa using ih m (by simpa using h)

theorem list_ext_getD {α : Type} (a b : List α) (d : α) (hlen : a.length = b.length)
    (h : ∀ i, i < a.length → a.getD i d = b.getD i d) : a = b := by
  induction a generalizing b with
  | nil => cases b with
    | nil => rfl
    | cons y ys => simp at hlen
  | cons x xs ih =>
    cases b with
    | nil => simp at hlen
    | cons y ys =>
      have h0 := h 0 (by simp)
      simp at h0
      subst h0
      have := ih ys (by simpa using hlen) (fun i hi => by simpa using h (i+1) (by simpa using hi))
      simp [this]

theorem set_getD_id {α : Type} (l : List α) (i : Nat) (d : α) :
    l.set i (l.getD i d) = l := by
  induction l generalizing i with
  | nil => simp
  | cons a t ih =>
    cases i with
    | zero => simp
    | succ j => simpa using ih j

/-! ### Key and byte lemmas -/

theorem cmp_refl (K : Nat) (k : List Nat) : cmp K k k = true := by
  simp [cmp]

theorem cmp_eq_true_iff {K : Nat} {a b : List Nat} (ha : KeyWF K a) (hb : KeyWF K b) :
    cmp K a b = true ↔ a = b := by
  constructor
  · intro h
    have h' : ∀ i, i < K → bytes a i = bytes b i := by simpa [cmp] using h
    exact list_ext_getD a b 0 (ha.1.trans hb.1.symm) (fun i hi => h' i (ha.1 ▸ hi))
  · intro h
    subst h
    exact cmp_refl K a

theorem keyByte_lt {K : Nat} {k : List Nat} (hk : KeyWF K k) {i : Nat} (hi : i < K) :
    bytes k i < 256 := by
  have hlen : i < k.length := by rw [hk.1]; exact hi
  have : k.getD i 0 ∈ k := by
    rw [List.getD_eq_getElem k 0 hlen]
    exact List.getElem_mem hlen
  exact hk.2 _ this

theorem take_extend {K : Nat} {k : List Nat} (hk : k.length = K) {level : Nat}
    (h : level < K) : k.take (level + 1) = k.take level ++ [bytes k level] := by
  exact take_succ_getD k level 0 (by omega)

theorem bytes_eq_of_take_eq {a b : List Nat} {n : Nat}
    (h : a.take n = b.take n) {i : Nat} (hi : i < n) :
    bytes a i = bytes b i := by
  have h1 : (a.take n).getD i 0 = (b.take n).getD i 0 := by rw [h]
  rw [getD_take a n i 0 hi, getD_take b n i 0 hi] at h1
  exact h1

/-! ### Pool array lemmas -/

theorem arr_set_size {α : Type} (a : Arr α) (i : Nat) (x : α) : (a.set i x).size = a.size := rfl

theorem arr_set_growth {α : Type} (a : Arr α) (i : Nat) (x : α) :
    (a.set i x).growth = a.growth := rfl

theorem arr_set_len {α : Type} (a : Arr α) (i : Nat) (x : α) :
    (a.set i x).buf.length = a.buf.length := by
  simp [Arr.set]

theorem arr_get_set_self {α : Type} (a : Arr α) (i : Nat) (x d0 : α) (h : i < a.buf.length) :
    (a.set i x).get d0 i = x :=
  getD_set_self a.buf i x d0 h

theorem arr_get_set_ne {α : Type} (a : Arr α) (i j : Nat) (x d0 : α) (h : j ≠ i) :
    (a.set i x).get d0 j = a.get d0 j :=
  getD_set_ne a.buf i j x d0 h

theorem arr_resize_pool_size {α : Type} (a : Arr α) (d0 : α) (n : Nat) :
    (a.resize_pool d0 n).size = Nat.min a.size n := by
  unfold Arr.resize_pool
  split <;> rfl

theorem arr_resize_pool_growth {α : Type} (a : Arr α) (d0 : α) (n : Nat) :
    (a.resize_pool d0 n).growth = a.growth := by
  unfold Arr.resize_pool
  split <;> rfl

theorem arr_resize_pool_len {α : Type} (a : Arr α) (d0 : α) (n : Nat)
    (h : a.size ≤ a.buf.length) :
    (a.resize_pool d0 n).buf.length = Nat.max a.buf.length n := by
  have hm1 : Nat.min a.size n ≤ a.size := Nat.min_le_left _ _
  unfold Arr.resize_pool
  split
  next hlt =>
    show (a.buf.take (Nat.min a.size n) ++ _).length = _
    have hx : Nat.max a.buf.length n = n := Nat.max_eq_right (Nat.le_of_lt hlt)
    rw [List.length_append, List.length_take, List.length_replicate,
        Nat.min_eq_left (le_trans hm1 h), hx]
    have hm2 : Nat.min a.size n ≤ n := Nat.min_le_right _ _
    omega
  next hge =>
    show a.buf.length = Nat.max a.buf.length n
    exact (Nat.max_eq_left (Nat.le_of_not_lt hge)).symm

theorem arr_resize_pool_get {α : Type} (a : Arr α) (d0 d1 : α) (n i : Nat)
    (h : a.size ≤ a.buf.length) (hi : i < Nat.min a.size n) :
    (a.resize_pool d0 n).get d1 i = a.get d1 i := by
  unfold Arr.resize_pool
  split
  next hlt =>
    show ((a.buf.take (Nat.min a.size n)) ++ _).getD i d1 = _
    rw [List.getD_append _ _ _ _
      (by rw [List.length_take, Nat.min_eq_left (le_trans (Nat.min_le_left _ _) h)]; exact hi)]
    exact getD_take a.buf _ i d1 hi
  next hge => rfl

theorem arr_add_idx {α : Type} (a : Arr α) (d0 : α) : (a.add d0).2 = a.size := by
  unfold Arr.add
  split
  next h => simp [arr_resize_pool_size]
  next h => rfl

theorem arr_add_size {α : Type} (a : Arr α) (d0 : α) : (a.add d0).1.size = a.size + 1 := by
  unfold Arr.add
  split
  next h => simp [arr_resize_pool_size]
  next h => rfl

theorem arr_add_growth {α : Type} (a : Arr α) (d0 : α) : (a.add d0).1.growth = a.growth := by
  unfold Arr.add
  split
  next h => simp [arr_resize_pool_growth]
  next h => rfl

theorem arr_add_len {α : Type} (a : Arr α) (d0 : α)
    (h : a.size ≤ a.buf.length) (hg : 1 ≤ a.growth) :
    a.size + 1 ≤ (a.add d0).1.buf.length ∧ a.buf.length ≤ (a.add d0).1.buf.length := by
  unfold Arr.add
  split
  next hfull =>
    show a.size + 1 ≤ (a.resize_pool d0 (a.size + a.growth)).buf.length ∧
      a.buf.length ≤ (a.resize_pool d0 (a.size + a.growth)).buf.length
    have hx : Nat.max a.buf.length (a.size + a.growth) = a.size + a.growth :=
      Nat.max_eq_right (by omega)
    rw [arr_resize_pool_len a d0 _ h, hx]
    omega
  next hroom =>
    have hr : a.size < a.buf.length := Nat.lt_of_not_le hroom
    show a.size + 1 ≤ a.buf.length ∧ a.buf.length ≤ a.buf.length
    exact ⟨by omega, le_refl _⟩

theorem arr_add_get_lt {α : Type} (a : Arr α) (d0 d1 : α) (i : Nat)
    (h : a.size ≤ a.buf.length) (hi : i < a.size) :
    (a.add d0).1.get d1 i = a.get d1 i := by
  unfold Arr.add
  split
  next hfull =>
    show (a.resize_pool d0 (a.size + a.growth)).get d1 i = a.get d1 i
    have hx : Nat.min a.size (a.size + a.growth) = a.size := Nat.min_eq_left (by omega)
    exact arr_resize_pool_get a d0 d1 _ i h (hx.symm ▸ hi)
  next hroom => rfl

/-! ### Counting VAL slots -/

theorem countP_eq_of_agree {α : Type} (l : List α) (p q : α → Bool)
    (h : ∀ x ∈ l, p x = q x) : l.countP p = l.countP q := by
  induction l with
  | nil => rfl
  | cons a t ih =>
    rw [List.countP_cons, List.countP_cons, h a (by simp),
      ih (fun x hx => h x (by simp [hx]))]

theorem map_eq_of_agree {α β : Type} (l : List α) (f g : α → β)
    (h : ∀ x ∈ l, f x = g x) : l.map f = l.map g := by
  induction l with
  | nil => rfl
  | cons a t ih =>
    simp only [List.map_cons]
    rw [h a (by simp), ih (fun x hx => h x (by simp [hx]))]

theorem countP_updFn_add (l : List Nat) (f : Nat → Slot) (b : Nat) (s : Slot)
    (hnd : l.Nodup) (hb : b ∈ l) :
    l.countP (fun x => decide ((updFn f b s x).tag = Tag.VAL)) +
      (if (f b).tag = Tag.VAL then 1 else 0) =
    l.countP (fun x => decide ((f x).tag = Tag.VAL)) +
      (if s.tag = Tag.VAL then 1 else 0) := by
  induction l with
  | nil => simp at hb
  | cons a t ih =>
    rw [List.countP_cons, List.countP_cons]
    rcases List.mem_cons.mp hb with h | h
    · subst h
      have hnt : b ∉ t := (List.nodup_cons.mp hnd).1
      have ht : t.countP (fun x => decide ((updFn f b s x).tag = Tag.VAL)) =
          t.countP (fun x => decide ((f x).tag = Tag.VAL)) :=
        countP_eq_of_agree t _ _ (fun x hx => by
          rw [updFn_ne f b s (fun hxb => hnt (hxb ▸ hx))])
      rw [ht, updFn_self]
      by_cases h1 : s.tag = Tag.VAL <;> by_cases h2 : (f b).tag = Tag.VAL <;>
        simp [h1, h2]
    · have hab : a ≠ b := by
        intro hc
        exact (List.nodup_cons.mp hnd).1 (hc ▸ h)
      have := ih (List.nodup_cons.mp hnd).2 h
      rw [updFn_ne f b s hab]
      omega

theorem tabValCount_updFn (f : Nat → Slot) (r1 r2 : Nat) (b : Nat) (s : Slot)
    (hb : b < 256) :
    tabValCount ⟨updFn f b s, r1⟩ + (if (f b).tag = Tag.VAL then 1 else 0) =
    tabValCount ⟨f, r2⟩ + (if s.tag = Tag.VAL then 1 else 0) := by
  exact countP_updFn_add (List.range NUM_ENTRIES_IN_TABLE) f b s
    (List.nodup_range _) (List.mem_range.mpr hb)

theorem tabValCount_refs_irrel (f : Nat → Slot) (r1 r2 : Nat) :
    tabValCount ⟨f, r1⟩ = tabValCount ⟨f, r2⟩ := rfl

theorem tabValCount_init : tabValCount init_table = 0 := by decide

theorem sum_map_range_succ (g : Nat → Nat) (n : Nat) :
    ((List.range (n + 1)).map g).sum = ((List.range n).map g).sum + g n := by
  rw [List.range_succ]
  simp

theorem sum_map_range_agree (n : Nat) (g g1 : Nat → Nat) (t : Nat) (ht : t < n)
    (hagree : ∀ i, i < n → i ≠ t → g1 i = g i) :
    ((List.range n).map g1).sum + g t = ((List.range n).map g).sum + g1 t := by
  induction n with
  | zero => omega
  | succ m ih =>
    rw [sum_map_range_succ, sum_map_range_succ]
    by_cases hm : t = m
    · subst hm
      have hsum : ((List.range t).map g1).sum = ((List.range t).map g).sum := by
        rw [map_eq_of_agree (List.range t) g1 g (fun i hi => by
          have := List.mem_range.mp hi
          exact hagree i (by omega) (by omega))]
      omega
    · have := ih (by omega) (fun i h1 h2 => hagree i (by omega) h2)
      have hgm : g1 m = g m := hagree m (by omega) (fun hc => hm hc.symm)
      omega

theorem sum_map_range_single_le (n : Nat) (g : Nat → Nat) (t : Nat) (ht : t < n) :
    g t ≤ ((List.range n).map g).sum := by
  induction n with
  | zero => omega
  | succ m ih =>
    rw [sum_map_range_succ]
    by_cases hm : t = m
    · subst hm; omega
    · have := ih (by omega)
      omega

theorem tabValCount_pos (t : Table) (b : Nat) (hb : b < 256)
    (h : (t.idx b).tag = Tag.VAL) : 1 ≤ tabValCount t := by
  have : 0 < (List.range NUM_ENTRIES_IN_TABLE).countP
      (fun x => decide ((t.idx x).tag = Tag.VAL)) :=
    List.countP_pos_iff.mpr ⟨b, List.mem_range.mpr hb, by simp [h]⟩
  exact this

theorem valCount_pos {ν : Type} (d : Dict ν) (ti b : Nat) (hti : ti < d.m_tabs.size)
    (hb : b < 256) (h : (slotAt d ti b).tag = Tag.VAL) : 1 ≤ valCount d := by
  have h1 : 1 ≤ tabValCount (tabAt d ti) := tabValCount_pos (tabAt d ti) b hb h
  have h2 := sum_map_range_single_le d.m_tabs.size (fun x => tabValCount (tabAt d x)) ti hti
  exact le_trans h1 h2

/-! ### One-step unfolding lemmas for the fueled operations -/

theorem lookupF_tab {ν : Type} (K : Nat) (d0v : ν) (d : Dict ν) (fuel t : Nat)
    (k : List Nat) (level : Nat) (h : (slotAt d t (bytes k level)).tag = Tag.TAB) :
    lookupF K d0v d (fuel + 1) t k level =
      lookupF K d0v d fuel ((slotAt d t (bytes k level)).idx) k (level + 1) := by
  simp only [lookupF]
  rw [h]

theorem lookupF_val {ν : Type} (K : Nat) (d0v : ν) (d : Dict ν) (fuel t : Nat)
    (k : List Nat) (level : Nat) (h : (slotAt d t (bytes k level)).tag = Tag.VAL) :
    lookupF K d0v d (fuel + 1) t k level =
      (if cmp K k ((entAt d0v d ((slotAt d t (bytes k level)).idx)).k)
       then some ((entAt d0v d ((slotAt d t (bytes k level)).idx)).v) else none) := by
  simp only [lookupF]
  rw [h]

theorem lookupF_nil {ν : Type} (K : Nat) (d0v : ν) (d : Dict ν) (fuel t : Nat)
    (k : List Nat) (level : Nat) (h : (slotAt d t (bytes k level)).tag = Tag.NIL) :
    lookupF K d0v d (fuel + 1) t k level = none := by
  simp only [lookupF]
  rw [h]

theorem lookupF_free {ν : Type} (K : Nat) (d0v : ν) (d : Dict ν) (fuel t : Nat)
    (k : List Nat) (level : Nat) (h : (slotAt d t (bytes k level)).tag = Tag.FREE) :
    lookupF K d0v d (fuel + 1) t k level = none := by
  simp only [lookupF]
  rw [h]

theorem prof_lookupF_tab {ν : Type} (d : Dict ν) (fuel t : Nat)
    (k : List Nat) (level : Nat) (h : (slotAt d t (bytes k level)).tag = Tag.TAB) :
    prof_lookupF d (fuel + 1) t k level =
      prof_lookupF d fuel ((slotAt d t (bytes k level)).idx) k (level + 1) := by
  simp only [prof_lookupF]
  rw [h]

theorem prof_lookupF_notab {ν : Type} (d : Dict ν) (fuel t : Nat)
    (k : List Nat) (level : Nat) (h : (slotAt d t (bytes k level)).tag ≠ Tag.TAB) :
    prof_lookupF d (fuel + 1) t k level = level + 1 := by
  cases htag : (slotAt d t (bytes k level)).tag with
  | TAB => exact absurd htag h
  | NIL => simp only [prof_lookupF, htag]
  | FREE => simp only [prof_lookupF, htag]
  | VAL => simp only [prof_lookupF, htag]

theorem removeF_tab {ν : Type} (K : Nat) (d0v : ν) (fuel : Nat) (d : Dict ν) (t : Nat)
    (k : List Nat) (level : Nat) (h : (slotAt d t (bytes k level)).tag = Tag.TAB) :
    removeF K d0v (fuel + 1) d t k level =
      removeF K d0v fuel d ((slotAt d t (bytes k level)).idx) k (level + 1) := by
  simp only [removeF]
  rw [h]

theorem removeF_val_match {ν : Type} (K : Nat) (d0v : ν) (fuel : Nat) (d : Dict ν) (t : Nat)
    (k : List Nat) (level : Nat) (h : (slotAt d t (bytes k level)).tag = Tag.VAL)
    (hc : cmp K k ((entAt d0v d ((slotAt d t (bytes k level)).idx)).k) = true) :
    removeF K d0v (fuel + 1) d t k level =
      { m_vals := d.m_vals.set ((slotAt d t (bytes k level)).idx)
          ⟨(entAt d0v d ((slotAt d t (bytes k level)).idx)).k,
           (entAt d0v d ((slotAt d t (bytes k level)).idx)).v, 0⟩,
        m_tabs := d.m_tabs.set t
          ⟨updFn (tabAt d t).idx (bytes k level) ⟨Tag.FREE, (slotAt d t (bytes k level)).idx⟩,
           (tabAt d t).refs - 1⟩,
        m_size := d.m_size - 1 } := by
  simp only [removeF]
  rw [h]
  simp [hc]

theorem removeF_val_nomatch {ν : Type} (K : Nat) (d0v : ν) (fuel : Nat) (d : Dict ν) (t : Nat)
    (k : List Nat) (level : Nat) (h : (slotAt d t (bytes k level)).tag = Tag.VAL)
    (hc : cmp K k ((entAt d0v d ((slotAt d t (bytes k level)).idx)).k) = false) :
    removeF K d0v (fuel + 1) d t k level = d := by
  simp only [removeF]
  rw [h]
  simp [hc]

theorem removeF_nil {ν : Type} (K : Nat) (d0v : ν) (fuel : Nat) (d : Dict ν) (t : Nat)
    (k : List Nat) (level : Nat) (h : (slotAt d t (bytes k level)).tag = Tag.NIL) :
    removeF K d0v (fuel + 1) d t k level = d := by
  simp only [removeF]
  rw [h]

theorem removeF_free {ν : Type} (K : Nat) (d0v : ν) (fuel : Nat) (d : Dict ν) (t : Nat)
    (k : List Nat) (level : Nat) (h : (slotAt d t (bytes k level)).tag = Tag.FREE) :
    removeF K d0v (fuel + 1) d t k level = d := by
  simp only [removeF]
  rw [h]

theorem lookup_or_allocF_tab {ν : Type} (K : Nat) (d0v : ν) (fuel : Nat) (d : Dict ν)
    (t : Nat) (k : List Nat) (level : Nat)
    (h : (slotAt d t (bytes k level)).tag = Tag.TAB) :
    lookup_or_allocF K d0v (fuel + 1) d t k level =
      lookup_or_allocF K d0v fuel d ((slotAt d t (bytes k level)).idx) k (level + 1) := by
  simp only [lookup_or_allocF]
  rw [h]

theorem lookup_or_allocF_val_match {ν : Type} (K : Nat) (d0v : ν) (fuel : Nat) (d : Dict ν)
    (t : Nat) (k : List Nat) (level : Nat)
    (h : (slotAt d t (bytes k level)).tag = Tag.VAL)
    (hc : cmp K k ((entAt d0v d ((slotAt d t (bytes k level)).idx)).k) = true) :
    lookup_or_allocF K d0v (fuel + 1) d t k level = (d, (slotAt d t (bytes k level)).idx) := by
  simp only [lookup_or_allocF]
  rw [h]
  simp [hc]

theorem lookup_or_allocF_val_nomatch {ν : Type} (K : Nat) (d0v : ν) (fuel : Nat) (d : Dict ν)
    (t : Nat) (k : List Nat) (level : Nat)
    (h : (slotAt d t (bytes k level)).tag = Tag.VAL)
    (hc : cmp K k ((entAt d0v d ((slotAt d t (bytes k level)).idx)).k) = false) :
    lookup_or_allocF K d0v (fuel + 1) d t k level = allocF d0v (fuel + 1) d t k level := by
  simp only [lookup_or_allocF]
  rw [h]
  simp [hc]

theorem lookup_or_allocF_nil {ν : Type} (K : Nat) (d0v : ν) (fuel : Nat) (d : Dict ν)
    (t : Nat) (k : List Nat) (level : Nat)
    (h : (slotAt d t (bytes k level)).tag = Tag.NIL) :
    lookup_or_allocF K d0v (fuel + 1) d t k level = allocF d0v (fuel + 1) d t k level := by
  simp only [lookup_or_allocF]
  rw [h]

theorem lookup_or_allocF_free {ν : Type} (K : Nat) (d0v : ν) (fuel : Nat) (d : Dict ν)
    (t : Nat) (k : List Nat) (level : Nat)
    (h : (slotAt d t (bytes k level)).tag = Tag.FREE) :
    lookup_or_allocF K d0v (fuel + 1) d t k level = allocF d0v (fuel + 1) d t k level := by
  simp only [lookup_or_allocF]
  rw [h]

theorem allocF_val {ν : Type} (d0v : ν) (fuel : Nat) (d : Dict ν) (t : Nat)
    (k : List Nat) (level : Nat) (h : (slotAt d t (bytes k level)).tag = Tag.VAL) :
    allocF d0v (fuel + 1) d t k level =
      allocF d0v fuel
        { d with m_tabs :=
            (((d.m_tabs.add table0).1.set d.m_tabs.size
                ⟨updFn (fun _ => nilSlot)
                    (bytes ((entAt d0v d ((slotAt d t (bytes k level)).idx)).k) (level + 1))
                    (slotAt d t (bytes k level)), 1⟩).set t
              ⟨updFn (((d.m_tabs.add table0).1.set d.m_tabs.size
                  ⟨updFn (fun _ => nilSlot)
                      (bytes ((entAt d0v d ((slotAt d t (bytes k level)).idx)).k) (level + 1))
                      (slotAt d t (bytes k level)), 1⟩).get table0 t).idx
                 (bytes k level) ⟨Tag.TAB, d.m_tabs.size⟩,
               (((d.m_tabs.add table0).1.set d.m_tabs.size
                  ⟨updFn (fun _ => nilSlot)
                      (bytes ((entAt d0v d ((slotAt d t (bytes k level)).idx)).k) (level + 1))
                      (slotAt d t (bytes k level)), 1⟩).get table0 t).refs⟩) }
        d.m_tabs.size k (level + 1) := by
  simp only [allocF]
  rw [h]
  simp

theorem allocF_nil {ν : Type} (d0v : ν) (fuel : Nat) (d : Dict ν) (t : Nat)
    (k : List Nat) (level : Nat) (h : (slotAt d t (bytes k level)).tag = Tag.NIL) :
    allocF d0v (fuel + 1) d t k level =
      (let q := d.m_vals.add (entry0 d0v)
       let p1 := q.1.set q.2 ⟨k, (q.1.get (entry0 d0v) q.2).v, (q.1.get (entry0 d0v) q.2).refs⟩
       ({ m_vals := p1.set q.2 ⟨(p1.get (entry0 d0v) q.2).k, (p1.get (entry0 d0v) q.2).v, 1⟩,
          m_tabs := d.m_tabs.set t
            ⟨updFn (tabAt d t).idx (bytes k level) ⟨Tag.VAL, q.2⟩, (tabAt d t).refs + 1⟩,
          m_size := d.m_size + 1 }, q.2)) := by
  simp only [allocF]
  rw [h]
  simp

theorem allocF_nil_wf {ν : Type} (d0v : ν) (fuel : Nat) (d : Dict ν) (t : Nat)
    (k : List Nat) (level : Nat) (h : (slotAt d t (bytes k level)).tag = Tag.NIL)
    (hle : d.m_vals.size ≤ d.m_vals.buf.length) (hg : 1 ≤ d.m_vals.growth) :
    allocF d0v (fuel + 1) d t k level =
      ({ m_vals := (d.m_vals.add (entry0 d0v)).1.set d.m_vals.size
           ⟨k, ((d.m_vals.add (entry0 d0v)).1.get (entry0 d0v) d.m_vals.size).v, 1⟩,
         m_tabs := d.m_tabs.set t
           ⟨updFn (tabAt d t).idx (bytes k level) ⟨Tag.VAL, d.m_vals.size⟩,
            (tabAt d t).refs + 1⟩,
         m_size := d.m_size + 1 }, d.m_vals.size) := by
  rw [allocF_nil d0v fuel d t k level h]
  have hidx : (d.m_vals.add (entry0 d0v)).2 = d.m_vals.size := arr_add_idx _ _
  have hlen : d.m_vals.size + 1 ≤ (d.m_vals.add (entry0 d0v)).1.buf.length :=
    (arr_add_len d.m_vals (entry0 d0v) hle hg).1
  have hget : ((d.m_vals.add (entry0 d0v)).1.set d.m_vals.size
        ⟨k, ((d.m_vals.add (entry0 d0v)).1.get (entry0 d0v) d.m_vals.size).v,
           ((d.m_vals.add (entry0 d0v)).1.get (entry0 d0v) d.m_vals.size).refs⟩).get
      (entry0 d0v) d.m_vals.size =
      ⟨k, ((d.m_vals.add (entry0 d0v)).1.get (entry0 d0v) d.m_vals.size).v,
         ((d.m_vals.add (entry0 d0v)).1.get (entry0 d0v) d.m_vals.size).refs⟩ :=
    arr_get_set_self _ _ _ _ (by omega)
  simp only [hidx, hget]
  have hss : ∀ (x y : Entry ν),
      (((d.m_vals.add (entry0 d0v)).1.set d.m_vals.size x).set d.m_vals.size y) =
      ((d.m_vals.add (entry0 d0v)).1.set d.m_vals.size y) := by
    intro x y
    show Arr.mk _ _ _ = Arr.mk _ _ _
    simp [Arr.set, List.set_set]
  rw [hss]

theorem allocF_free {ν : Type} (d0v : ν) (fuel : Nat) (d : Dict ν) (t : Nat)
    (k : List Nat) (level : Nat) (h : (slotAt d t (bytes k level)).tag = Tag.FREE) :
    allocF d0v (fuel + 1) d t k level =
      ({ m_vals := d.m_vals.set ((slotAt d t (bytes k level)).idx)
           ⟨(entAt d0v d ((slotAt d t (bytes k level)).idx)).k,
            (entAt d0v d ((slotAt d t (bytes k level)).idx)).v, 1⟩,
         m_tabs := d.m_tabs.set t
           ⟨updFn (tabAt d t).idx (bytes k level) ⟨Tag.VAL, (slotAt d t (bytes k level)).idx⟩,
            (tabAt d t).refs + 1⟩,
         m_size := d.m_size + 1 }, (slotAt d t (bytes k level)).idx) := by
  simp only [allocF]
  rw [h]
  simp [entAt]

/-! ### The freshly constructed dictionary is well-formed -/

theorem dictNew_tab {ν : Type} (t : Nat) : tabAt (dictNew (ν := ν)) t = init_table := by
  show ((List.replicate 16 table0).set 0 init_table).getD t table0 = init_table
  have h : (List.replicate 16 table0).set 0 init_table = List.replicate 16 table0 := rfl
  rw [h]
  exact getD_replicate table0 16 t

theorem dictNew_slot {ν : Type} (t b : Nat) : slotAt (dictNew (ν := ν)) t b = nilSlot := by
  show (tabAt (dictNew (ν := ν)) t).idx b = nilSlot
  rw [dictNew_tab]
  rfl

theorem dictNew_WF {ν : Type} (K : Nat) (d0v : ν) (hK : 0 < K) :
    DictWF K d0v (dictNew (ν := ν)) pth0 := by
  refine ⟨?_, ?_, ?_, ?_, ?_, ?_, ?_, ?_, ?_, ?_, ?_, ?_, ?_⟩
  · exact Nat.le_refl 0
  · show (1 : Nat) ≤ 16
    omega
  · show (1 : Nat) ≤ 256
    omega
  · show (1 : Nat) ≤ 16
    omega
  · exact Nat.le_refl 1
  · rfl
  · intro ti _
    simpa [pth0] using hK
  · intro ti hti tj htj _
    have h1 : (dictNew (ν := ν)).m_tabs.size = 1 := rfl
    rw [h1] at hti htj
    omega
  · intro ti _ b _ htag
    rw [dictNew_slot] at htag
    exact absurd htag (by decide)
  · intro ti _ b _ htag
    rw [dictNew_slot] at htag
    exact absurd htag (by decide)
  · intro ti _ b _ htag
    rw [dictNew_slot] at htag
    exact absurd htag (by decide)
  · intro tj htj hne
    have h1 : (dictNew (ν := ν)).m_tabs.size = 1 := rfl
    rw [h1] at htj
    exact absurd (by omega : tj = 0) hne
  · show (0 : Nat) = valCount (dictNew (ν := ν))
    have h1 : ∀ ti, tabValCount (tabAt (dictNew (ν := ν)) ti) = 0 := by
      intro ti
      rw [dictNew_tab]
      exact tabValCount_init
    show (0 : Nat) = ((List.range 1).map (fun ti => tabValCount (tabAt (dictNew (ν := ν)) ti))).sum
    simp [h1]

/-! ### Record accessors through pool writes -/

theorem tabAt_mk_keep {ν : Type} (d : Dict ν) (va : Arr (Entry ν)) (n ti : Nat) :
    tabAt (⟨va, d.m_tabs, n⟩ : Dict ν) ti = tabAt d ti := rfl

theorem tabAt_set_self {ν : Type} (d : Dict ν) (va : Arr (Entry ν)) (n t : Nat) (tb : Table)
    (hlen : t < d.m_tabs.buf.length) :
    tabAt (⟨va, d.m_tabs.set t tb, n⟩ : Dict ν) t = tb :=
  arr_get_set_self _ _ _ _ hlen

theorem tabAt_set_ne {ν : Type} (d : Dict ν) (va : Arr (Entry ν)) (n t ti : Nat) (tb : Table)
    (hti : ti ≠ t) :
    tabAt (⟨va, d.m_tabs.set t tb, n⟩ : Dict ν) ti = tabAt d ti :=
  arr_get_set_ne _ _ _ _ _ hti

theorem tabAt_set_oob {ν : Type} (d : Dict ν) (va : Arr (Entry ν)) (n t ti : Nat) (tb : Table)
    (hlen : d.m_tabs.buf.length ≤ t) :
    tabAt (⟨va, d.m_tabs.set t tb, n⟩ : Dict ν) ti = tabAt d ti := by
  show ((d.m_tabs.buf.set t tb).getD ti table0) = d.m_tabs.buf.getD ti table0
  rw [List.set_eq_of_length_le hlen]

theorem entAt_mk_keep {ν : Type} (d0v : ν) (d : Dict ν) (ta : Arr Table) (n e : Nat) :
    entAt d0v (⟨d.m_vals, ta, n⟩ : Dict ν) e = entAt d0v d e := rfl

theorem entAt_set_self {ν : Type} (d0v : ν) (d : Dict ν) (ta : Arr Table) (n e : Nat)
    (x : Entry ν) (hlen : e < d.m_vals.buf.length) :
    entAt d0v (⟨d.m_vals.set e x, ta, n⟩ : Dict ν) e = x :=
  arr_get_set_self _ _ _ _ hlen

theorem entAt_set_ne {ν : Type} (d0v : ν) (d : Dict ν) (ta : Arr Table) (n e e2 : Nat)
    (x : Entry ν) (he : e2 ≠ e) :
    entAt d0v (⟨d.m_vals.set e x, ta, n⟩ : Dict ν) e2 = entAt d0v d e2 :=
  arr_get_set_ne _ _ _ _ _ he

theorem entAt_set_oob {ν : Type} (d0v : ν) (d : Dict ν) (ta : Arr Table) (n e e2 : Nat)
    (x : Entry ν) (hlen : d.m_vals.buf.length ≤ e) :
    entAt d0v (⟨d.m_vals.set e x, ta, n⟩ : Dict ν) e2 = entAt d0v d e2 := by
  show ((d.m_vals.buf.set e x).getD e2 (entry0 d0v)) = d.m_vals.buf.getD e2 (entry0 d0v)
  rw [List.set_eq_of_length_le hlen]

theorem entAt_set_k {ν : Type} (d0v : ν) (d : Dict ν) (ta : Arr Table) (n e e2 : Nat)
    (kk : List Nat) (vv : ν) (rr : Nat)
    (hk : kk = (entAt d0v d e).k) :
    (entAt d0v (⟨d.m_vals.set e ⟨kk, vv, rr⟩, ta, n⟩ : Dict ν) e2).k = (entAt d0v d e2).k := by
  by_cases he : e2 = e
  · subst he
    by_cases hlen : e2 < d.m_vals.buf.length
    · rw [entAt_set_self d0v d ta n e2 _ hlen, hk]
    · rw [entAt_set_oob d0v d ta n e2 e2 _ (by omega)]
  · rw [entAt_set_ne d0v d ta n e e2 _ he]

/-! ### Removal: the only slot change is VAL to FREE, keys and values of
entries are preserved -/

theorem removeF_slot_effect {ν : Type} (K : Nat) (d0v : ν) :
    ∀ (fuel : Nat) (d : Dict ν) (t : Nat) (k : List Nat) (level ti b : Nat),
    slotAt (removeF K d0v fuel d t k level) ti b = slotAt d ti b ∨
    (slotAt (removeF K d0v fuel d t k level) ti b).tag = Tag.FREE := by
  intro fuel
  induction fuel with
  | zero => intro d t k level ti b; left; rfl
  | succ f ih =>
    intro d t k level ti b
    cases htag : (slotAt d t (bytes k level)).tag with
    | TAB =>
      rw [removeF_tab K d0v f d t k level htag]
      exact ih d _ k (level + 1) ti b
    | VAL =>
      cases hc : cmp K k ((entAt d0v d ((slotAt d t (bytes k level)).idx)).k) with
      | false =>
        rw [removeF_val_nomatch K d0v f d t k level htag hc]
        left; rfl
      | true =>
        rw [removeF_val_match K d0v f d t k level htag hc]
        by_cases hlen : t < d.m_tabs.buf.length
        · by_cases hti : ti = t
          · subst hti
            show ((tabAt _ ti).idx b) = _ ∨ ((tabAt _ ti).idx b).tag = Tag.FREE
            rw [tabAt_set_self d _ _ ti _ hlen]
            by_cases hb : b = bytes k level
            · subst hb
              right
              simp [updFn_self]
            · left
              simp [updFn_ne _ _ _ hb, slotAt]
          · left
            show ((tabAt _ ti).idx b) = _
            rw [tabAt_set_ne d _ _ t ti _ hti]
            rfl
        · left
          show ((tabAt _ ti).idx b) = _
          rw [tabAt_set_oob d _ _ t ti _ (by omega)]
          rfl
    | NIL =>
      rw [removeF_nil K d0v f d t k level htag]
      left; rfl
    | FREE =>
      rw [removeF_free K d0v f d t k level htag]
      left; rfl

theorem removeF_ent_k {ν : Type} (K : Nat) (d0v : ν) :
    ∀ (fuel : Nat) (d : Dict ν) (t : Nat) (k : List Nat) (level e : Nat),
    (entAt d0v (removeF K d0v fuel d t k level) e).k = (entAt d0v d e).k := by
  intro fuel
  induction fuel with
  | zero => intro d t k level e; rfl
  | succ f ih =>
    intro d t k level e
    cases htag : (slotAt d t (bytes k level)).tag with
    | TAB =>
      rw [removeF_tab K d0v f d t k level htag]
      exact ih d _ k (level + 1) e
    | VAL =>
      cases hc : cmp K k ((entAt d0v d ((slotAt d t (bytes k level)).idx)).k) with
      | false => rw [removeF_val_nomatch K d0v f d t k level htag hc]
      | true =>
        rw [removeF_val_match K d0v f d t k level htag hc]
        exact entAt_set_k d0v d _ _ _ e _ _ _ rfl
    | NIL => rw [removeF_nil K d0v f d t k level htag]
    | FREE => rw [removeF_free K d0v f d t k level htag]

theorem slot_tag_oob {ν : Type} (d : Dict ν) (t b : Nat) (h : d.m_tabs.buf.length ≤ t) :
    slotAt d t b = nilSlot := by
  show (d.m_tabs.buf.getD t table0).idx b = nilSlot
  rw [List.getD_eq_default _ _ h]
  rfl

theorem lt_len_of_tag_ne_nil {ν : Type} {d : Dict ν} {t b : Nat}
    (h : (slotAt d t b).tag ≠ Tag.NIL) : t < d.m_tabs.buf.length := by
  by_contra hc
  rw [slot_tag_oob d t b (by omega)] at h
  exact h rfl

/-! ### Remove-then-lookup laws (these hold on every model state) -/

theorem removeF_lookupF_none {ν : Type} (K : Nat) (d0v : ν) (k : List Nat) :
    ∀ (fuel : Nat) (d : Dict ν) (t level : Nat),
    lookupF K d0v (removeF K d0v fuel d t k level) fuel t k level = none := by
  intro fuel
  induction fuel with
  | zero => intro d t level; rfl
  | succ f ih =>
    intro d t level
    cases htag : (slotAt d t (bytes k level)).tag with
    | TAB =>
      rw [removeF_tab K d0v f d t k level htag]
      rcases removeF_slot_effect K d0v f d ((slotAt d t (bytes k level)).idx) k (level + 1)
          t (bytes k level) with heq | hfree
      · have htag2 : (slotAt (removeF K d0v f d ((slotAt d t (bytes k level)).idx) k (level + 1))
            t (bytes k level)).tag = Tag.TAB := by rw [heq]; exact htag
        rw [lookupF_tab K d0v _ f t k level htag2, heq]
        exact ih d _ (level + 1)
      · exact lookupF_free K d0v _ f t k level hfree
    | VAL =>
      cases hc : cmp K k ((entAt d0v d ((slotAt d t (bytes k level)).idx)).k) with
      | false =>
        rw [removeF_val_nomatch K d0v f d t k level htag hc,
            lookupF_val K d0v d f t k level htag, hc]
        rfl
      | true =>
        rw [removeF_val_match K d0v f d t k level htag hc]
        have hlen : t < d.m_tabs.buf.length :=
          lt_len_of_tag_ne_nil (by rw [htag]; exact fun hcon => Tag.noConfusion hcon)
        have hfree : (slotAt (⟨d.m_vals.set ((slotAt d t (bytes k level)).idx)
              ⟨(entAt d0v d ((slotAt d t (bytes k level)).idx)).k,
               (entAt d0v d ((slotAt d t (bytes k level)).idx)).v, 0⟩,
            d.m_tabs.set t
              ⟨updFn (tabAt d t).idx (bytes k level)
                  ⟨Tag.FREE, (slotAt d t (bytes k level)).idx⟩, (tabAt d t).refs - 1⟩,
            d.m_size - 1⟩ : Dict ν) t (bytes k level)).tag = Tag.FREE := by
          show ((tabAt _ t).idx (bytes k level)).tag = Tag.FREE
          rw [tabAt_set_self d _ _ t _ hlen]
          simp [updFn_self]
        exact lookupF_free K d0v _ f t k level hfree
    | NIL =>
      rw [removeF_nil K d0v f d t k level htag]
      exact lookupF_nil K d0v d f t k level htag
    | FREE =>
      rw [removeF_free K d0v f d t k level htag]
      exact lookupF_free K d0v d f t k level htag

theorem removeF_noop_of_absent {ν : Type} (K : Nat) (d0v : ν) (k : List Nat) :
    ∀ (fuel : Nat) (d : Dict ν) (t level : Nat),
    lookupF K d0v d fuel t k level = none → removeF K d0v fuel d t k level = d := by
  intro fuel
  induction fuel with
  | zero => intro d t level _; rfl
  | succ f ih =>
    intro d t level hlk
    cases htag : (slotAt d t (bytes k level)).tag with
    | TAB =>
      rw [lookupF_tab K d0v d f t k level htag] at hlk
      rw [removeF_tab K d0v f d t k level htag]
      exact ih d _ (level + 1) hlk
    | VAL =>
      rw [lookupF_val K d0v d f t k level htag] at hlk
      cases hc : cmp K k ((entAt d0v d ((slotAt d t (bytes k level)).idx)).k) with
      | false => exact removeF_val_nomatch K d0v f d t k level htag hc
      | true =>
        rw [hc] at hlk
        simp at hlk
    | NIL => exact removeF_nil K d0v f d t k level htag
    | FREE => exact removeF_free K d0v f d t k level htag

theorem removeF_size_of_present {ν : Type} (K : Nat) (d0v : ν) (k : List Nat) :
    ∀ (fuel : Nat) (d : Dict ν) (t level : Nat),
    (lookupF K d0v d fuel t k level).isSome = true →
    (removeF K d0v fuel d t k level).m_size = d.m_size - 1 := by
  intro fuel
  induction fuel with
  | zero => intro d t level h; simp [lookupF] at h
  | succ f ih =>
    intro d t level h
    cases htag : (slotAt d t (bytes k level)).tag with
    | TAB =>
      rw [lookupF_tab K d0v d f t k level htag] at h
      rw [removeF_tab K d0v f d t k level htag]
      exact ih d _ (level + 1) h
    | VAL =>
      rw [lookupF_val K d0v d f t k level htag] at h
      cases hc : cmp K k ((entAt d0v d ((slotAt d t (bytes k level)).idx)).k) with
      | false => rw [hc] at h; simp at h
      | true => rw [removeF_val_match K d0v f d t k level htag hc]
    | NIL =>
      rw [lookupF_nil K d0v d f t k level htag] at h
      simp at h
    | FREE =>
      rw [lookupF_free K d0v d f t k level htag] at h
      simp at h

theorem lookupF_present_valCount {ν : Type} (K : Nat) (d0v : ν) (d : Dict ν)
    (pth : Nat → List Nat) (hwf : DictWF K d0v d pth) (k : List Nat) (hk : KeyWF K k) :
    ∀ (fuel t level : Nat), t < d.m_tabs.size → (pth t).length = level →
    (lookupF K d0v d fuel t k level).isSome = true → 1 ≤ valCount d := by
  intro fuel
  induction fuel with
  | zero => intro t level _ _ h; simp [lookupF] at h
  | succ f ih =>
    intro t level ht hlev h
    have hlevK : level < K := hlev ▸ hwf.pth_len t ht
    have hb : bytes k level < 256 := keyByte_lt hk hlevK
    cases htag : (slotAt d t (bytes k level)).tag with
    | TAB =>
      obtain ⟨hc1, hc2⟩ := hwf.tab_ok t ht (bytes k level) hb htag
      rw [lookupF_tab K d0v d f t k level htag] at h
      exact ih _ (level + 1) hc1 (by rw [hc2]; simp [hlev]) h
    | VAL => exact valCount_pos d t (bytes k level) ht hb htag
    | NIL =>
      rw [lookupF_nil K d0v d f t k level htag] at h
      simp at h
    | FREE =>
      rw [lookupF_free K d0v d f t k level htag] at h
      simp at h

/-! ### Fuel stabilization: on well-formed states the recursion depth is
bounded by `K - level` (hence by `K` from the root) -/

theorem lookupF_stable {ν : Type} (K : Nat) (d0v : ν) (d : Dict ν)
    (pth : Nat → List Nat) (hwf : DictWF K d0v d pth) (k : List Nat) (hk : KeyWF K k) :
    ∀ (fuel t level : Nat), t < d.m_tabs.size → (pth t).length = level →
    K - level ≤ fuel →
    lookupF K d0v d fuel t k level = lookupF K d0v d (K - level) t k level := by
  intro fuel
  induction fuel with
  | zero =>
    intro t level ht hlev hfuel
    have : level < K := hlev ▸ hwf.pth_len t ht
    omega
  | succ f ih =>
    intro t level ht hlev hfuel
    have hlevK : level < K := hlev ▸ hwf.pth_len t ht
    have hb : bytes k level < 256 := keyByte_lt hk hlevK
    have hKl : K - level = (K - (level + 1)) + 1 := by omega
    cases htag : (slotAt d t (bytes k level)).tag with
    | TAB =>
      obtain ⟨hc1, hc2⟩ := hwf.tab_ok t ht (bytes k level) hb htag
      have hlev2 : (pth ((slotAt d t (bytes k level)).idx)).length = level + 1 := by
        rw [hc2]; simp [hlev]
      rw [lookupF_tab K d0v d f t k level htag,
          ih _ (level + 1) hc1 hlev2 (by omega), hKl,
          lookupF_tab K d0v d (K - (level + 1)) t k level htag]
    | VAL =>
      rw [lookupF_val K d0v d f t k level htag, hKl,
          lookupF_val K d0v d (K - (level + 1)) t k level htag]
    | NIL =>
      rw [lookupF_nil K d0v d f t k level htag, hKl,
          lookupF_nil K d0v d (K - (level + 1)) t k level htag]
    | FREE =>
      rw [lookupF_free K d0v d f t k level htag, hKl,
          lookupF_free K d0v d (K - (level + 1)) t k level htag]

theorem prof_lookupF_stable {ν : Type} (K : Nat) (d0v : ν) (d : Dict ν)
    (pth : Nat → List Nat) (hwf : DictWF K d0v d pth) (k : List Nat) (hk : KeyWF K k) :
    ∀ (fuel t level : Nat), t < d.m_tabs.size → (pth t).length = level →
    K - level ≤ fuel →
    prof_lookupF d fuel t k level = prof_lookupF d (K - level) t k level := by
  intro fuel
  induction fuel with
  | zero =>
    intro t level ht hlev hfuel
    have : level < K := hlev ▸ hwf.pth_len t ht
    omega
  | succ f ih =>
    intro t level ht hlev hfuel
    have hlevK : level < K := hlev ▸ hwf.pth_len t ht
    have hb : bytes k level < 256 := keyByte_lt hk hlevK
    have hKl : K - level = (K - (level + 1)) + 1 := by omega
    cases htag : (slotAt d t (bytes k level)).tag with
    | TAB =>
      obtain ⟨hc1, hc2⟩ := hwf.tab_ok t ht (bytes k level) hb htag
      have hlev2 : (pth ((slotAt d t (bytes k level)).idx)).length = level + 1 := by
        rw [hc2]; simp [hlev]
      rw [prof_lookupF_tab d f t k level htag,
          ih _ (level + 1) hc1 hlev2 (by omega), hKl,
          prof_lookupF_tab d (K - (level + 1)) t k level htag]
    | VAL =>
      rw [prof_lookupF_notab d f t k level (by rw [htag]; exact fun hcon => Tag.noConfusion hcon),
          hKl, prof_lookupF_notab d (K - (level + 1)) t k level
            (by rw [htag]; exact fun hcon => Tag.noConfusion hcon)]
    | NIL =>
      rw [prof_lookupF_notab d f t k level (by rw [htag]; exact fun hcon => Tag.noConfusion hcon),
          hKl, prof_lookupF_notab d (K - (level + 1)) t k level
            (by rw [htag]; exact fun hcon => Tag.noConfusion hcon)]
    | FREE =>
      rw [prof_lookupF_notab d f t k level (by rw [htag]; exact fun hcon => Tag.noConfusion hcon),
          hKl, prof_lookupF_notab d (K - (level + 1)) t k level
            (by rw [htag]; exact fun hcon => Tag.noConfusion hcon)]

theorem removeF_stable {ν : Type} (K : Nat) (d0v : ν) (d : Dict ν)
    (pth : Nat → List Nat) (hwf : DictWF K d0v d pth) (k : List Nat) (hk : KeyWF K k) :
    ∀ (fuel t level : Nat), t < d.m_tabs.size → (pth t).length = level →
    K - level ≤ fuel →
    removeF K d0v fuel d t k level = removeF K d0v (K - level) d t k level := by
  intro fuel
  induction fuel with
  | zero =>
    intro t level ht hlev hfuel
    have : level < K := hlev ▸ hwf.pth_len t ht
    omega
  | succ f ih =>
    intro t level ht hlev hfuel
    have hlevK : level < K := hlev ▸ hwf.pth_len t ht
    have hb : bytes k level < 256 := keyByte_lt hk hlevK
    have hKl : K - level = (K - (level + 1)) + 1 := by omega
    cases htag : (slotAt d t (bytes k level)).tag with
    | TAB =>
      obtain ⟨hc1, hc2⟩ := hwf.tab_ok t ht (bytes k level) hb htag
      have hlev2 : (pth ((slotAt d t (bytes k level)).idx)).length = level + 1 := by
        rw [hc2]; simp [hlev]
      rw [removeF_tab K d0v f d t k level htag,
          ih _ (level + 1) hc1 hlev2 (by omega), hKl,
          removeF_tab K d0v (K - (level + 1)) d t k level htag]
    | VAL =>
      cases hc : cmp K k ((entAt d0v d ((slotAt d t (bytes k level)).idx)).k) with
      | false =>
        rw [removeF_val_nomatch K d0v f d t k level htag hc, hKl,
            removeF_val_nomatch K d0v (K - (level + 1)) d t k level htag hc]
      | true =>
        rw [removeF_val_match K d0v f d t k level htag hc, hKl,
            removeF_val_match K d0v (K - (level + 1)) d t k level htag hc]
    | NIL =>
      rw [removeF_nil K d0v f d t k level htag, hKl,
          removeF_nil K d0v (K - (level + 1)) d t k level htag]
    | FREE =>
      rw [removeF_free K d0v f d t k level htag, hKl,
          removeF_free K d0v (K - (level + 1)) d t k level htag]

/-! ### Removal preserves well-formedness -/

theorem free_update_WF {ν : Type} (K : Nat) (d0v : ν) (d : Dict ν) (pth : Nat → List Nat)
    (hwf : DictWF K d0v d pth) (t b : Nat) (vv : ν) (rr rt : Nat)
    (ht : t < d.m_tabs.size) (hb : b < 256)
    (htag : (slotAt d t b).tag = Tag.VAL) :
    DictWF K d0v
      (⟨d.m_vals.set ((slotAt d t b).idx)
          ⟨(entAt d0v d ((slotAt d t b).idx)).k, vv, rr⟩,
        d.m_tabs.set t ⟨updFn (tabAt d t).idx b ⟨Tag.FREE, (slotAt d t b).idx⟩, rt⟩,
        d.m_size - 1⟩ : Dict ν) pth := by
  have hlen : t < d.m_tabs.buf.length := lt_of_lt_of_le ht hwf.tabs_size_le
  obtain ⟨heLT, hKey, hTake⟩ := hwf.val_ok t ht b hb htag
  have hslot : ∀ ti b2, slotAt (⟨d.m_vals.set ((slotAt d t b).idx)
          ⟨(entAt d0v d ((slotAt d t b).idx)).k, vv, rr⟩,
        d.m_tabs.set t ⟨updFn (tabAt d t).idx b ⟨Tag.FREE, (slotAt d t b).idx⟩, rt⟩,
        d.m_size - 1⟩ : Dict ν) ti b2 =
      (if ti = t then (if b2 = b
        then (⟨Tag.FREE, (slotAt d t b).idx⟩ : Slot) else slotAt d ti b2)
       else slotAt d ti b2) := by
    intro ti b2
    by_cases hti : ti = t
    · subst hti
      show ((tabAt _ ti).idx b2) = _
      rw [tabAt_set_self d _ _ ti _ hlen]
      by_cases hb2 : b2 = b
      · subst hb2
        simp [updFn_self]
      · simp [updFn_ne _ _ _ hb2, hb2]
        rfl
    · show ((tabAt _ ti).idx b2) = _
      rw [tabAt_set_ne d _ _ t ti _ hti]
      simp [hti]
      rfl
  have hent : ∀ e2, (entAt d0v (⟨d.m_vals.set ((slotAt d t b).idx)
          ⟨(entAt d0v d ((slotAt d t b).idx)).k, vv, rr⟩,
        d.m_tabs.set t ⟨updFn (tabAt d t).idx b ⟨Tag.FREE, (slotAt d t b).idx⟩, rt⟩,
        d.m_size - 1⟩ : Dict ν) e2).k = (entAt d0v d e2).k := by
    intro e2
    exact entAt_set_k d0v d _ _ _ e2 _ _ _ rfl
  refine ⟨?_, ?_, ?_, ?_, ?_, hwf.pth_root, ?_, ?_, ?_, ?_, ?_, ?_, ?_⟩
  · show (d.m_vals.set _ _).size ≤ (d.m_vals.set _ _).buf.length
    rw [arr_set_size, arr_set_len]
    exact hwf.vals_size_le
  · show (d.m_tabs.set _ _).size ≤ (d.m_tabs.set _ _).buf.length
    rw [arr_set_size, arr_set_len]
    exact hwf.tabs_size_le
  · show 1 ≤ (d.m_vals.set _ _).growth
    rw [arr_set_growth]
    exact hwf.vals_growth
  · show 1 ≤ (d.m_tabs.set _ _).growth
    rw [arr_set_growth]
    exact hwf.tabs_growth
  · exact hwf.root_live
  · exact hwf.pth_len
  · exact hwf.pth_inj
  · intro ti hti b2 hb2 htag2
    rw [hslot ti b2] at htag2 ⊢
    by_cases hti2 : ti = t
    · subst hti2
      by_cases hb3 : b2 = b
      · subst hb3
        simp at htag2
      · simp only [if_pos rfl, if_neg hb3] at htag2 ⊢
        exact hwf.tab_ok ti hti b2 hb2 htag2
    · simp only [if_neg hti2] at htag2 ⊢
      exact hwf.tab_ok ti hti b2 hb2 htag2
  · intro ti hti b2 hb2 htag2
    rw [hslot ti b2] at htag2 ⊢
    by_cases hti2 : ti = t
    · subst hti2
      by_cases hb3 : b2 = b
      · subst hb3
        simp at htag2
      · simp only [if_pos rfl, if_neg hb3] at htag2 ⊢
        obtain ⟨h1, h2, h3⟩ := hwf.val_ok ti hti b2 hb2 htag2
        rw [hent]
        exact ⟨h1, h2, h3⟩
    · simp only [if_neg hti2] at htag2 ⊢
      obtain ⟨h1, h2, h3⟩ := hwf.val_ok ti hti b2 hb2 htag2
      rw [hent]
      exact ⟨h1, h2, h3⟩
  · intro ti hti b2 hb2 htag2
    rw [hslot ti b2] at htag2 ⊢
    by_cases hti2 : ti = t
    · subst hti2
      by_cases hb3 : b2 = b
      · subst hb3
        simp only [if_pos rfl]
        rw [hent]
        exact ⟨heLT, hKey, hTake⟩
      · simp only [if_pos rfl, if_neg hb3] at htag2 ⊢
        obtain ⟨h1, h2, h3⟩ := hwf.free_ok ti hti b2 hb2 htag2
        rw [hent]
        exact ⟨h1, h2, h3⟩
    · simp only [if_neg hti2] at htag2 ⊢
      obtain ⟨h1, h2, h3⟩ := hwf.free_ok ti hti b2 hb2 htag2
      rw [hent]
      exact ⟨h1, h2, h3⟩
  · intro tj htj hne
    obtain ⟨ti, hti, b2, hb2, hs⟩ := hwf.parent_ok tj htj hne
    refine ⟨ti, hti, b2, hb2, ?_⟩
    rw [hslot ti b2]
    by_cases hti2 : ti = t
    · subst hti2
      by_cases hb3 : b2 = b
      · subst hb3
        rw [hs] at htag
        simp at htag
      · simp only [if_pos rfl, if_neg hb3]
        exact hs
    · simp only [if_neg hti2]
      exact hs
  · show d.m_size - 1 = _
    have hpos : 1 ≤ valCount d := valCount_pos d t b ht hb htag
    have hsz := hwf.size_ok
    have htc : tabValCount (⟨updFn (tabAt d t).idx b
          ⟨Tag.FREE, (slotAt d t b).idx⟩, rt⟩ : Table) +
        (if ((tabAt d t).idx b).tag = Tag.VAL then 1 else 0) =
        tabValCount (⟨(tabAt d t).idx, (tabAt d t).refs⟩ : Table) +
        (if (Slot.mk Tag.FREE ((slotAt d t b).idx)).tag = Tag.VAL then 1 else 0) :=
      tabValCount_updFn _ _ _ _ _ hb
    have heta : (⟨(tabAt d t).idx, (tabAt d t).refs⟩ : Table) = tabAt d t := rfl
    rw [heta] at htc
    have htag3 : ((tabAt d t).idx b).tag = Tag.VAL := htag
    rw [htag3] at htc
    simp at htc
    have hagree := sum_map_range_agree d.m_tabs.size
      (fun ti => tabValCount (tabAt d ti))
      (fun ti => tabValCount (tabAt (⟨d.m_vals.set ((slotAt d t b).idx)
          ⟨(entAt d0v d ((slotAt d t b).idx)).k, vv, rr⟩,
        d.m_tabs.set t ⟨updFn (tabAt d t).idx b ⟨Tag.FREE, (slotAt d t b).idx⟩, rt⟩,
        d.m_size - 1⟩ : Dict ν) ti)) t ht
      (fun i _ hit => congrArg tabValCount (tabAt_set_ne d _ _ t i _ hit))
    have htabt : tabAt (⟨d.m_vals.set ((slotAt d t b).idx)
          ⟨(entAt d0v d ((slotAt d t b).idx)).k, vv, rr⟩,
        d.m_tabs.set t ⟨updFn (tabAt d t).idx b ⟨Tag.FREE, (slotAt d t b).idx⟩, rt⟩,
        d.m_size - 1⟩ : Dict ν) t =
        ⟨updFn (tabAt d t).idx b ⟨Tag.FREE, (slotAt d t b).idx⟩, rt⟩ :=
      tabAt_set_self d _ _ t _ hlen
    beta_reduce at hagree
    rw [htabt] at hagree
    have hv : valCount d =
        ((List.range d.m_tabs.size).map (fun ti => tabValCount (tabAt d ti))).sum := rfl
    rw [hv] at hsz hpos
    show d.m_size - 1 = ((List.range d.m_tabs.size).map _).sum
    omega

theorem removeF_WF {ν : Type} (K : Nat) (d0v : ν) (d : Dict ν) (pth : Nat → List Nat)
    (hwf : DictWF K d0v d pth) (k : List Nat) (hk : KeyWF K k) :
    ∀ (fuel t level : Nat), t < d.m_tabs.size → (pth t).length = level →
    DictWF K d0v (removeF K d0v fuel d t k level) pth := by
  intro fuel
  induction fuel with
  | zero => intro t level _ _; exact hwf
  | succ f ih =>
    intro t level ht hlev
    have hlevK : level < K := hlev ▸ hwf.pth_len t ht
    have hb : bytes k level < 256 := keyByte_lt hk hlevK
    cases htag : (slotAt d t (bytes k level)).tag with
    | TAB =>
      obtain ⟨hc1, hc2⟩ := hwf.tab_ok t ht (bytes k level) hb htag
      rw [removeF_tab K d0v f d t k level htag]
      exact ih _ (level + 1) hc1 (by rw [hc2]; simp [hlev])
    | VAL =>
      cases hc : cmp K k ((entAt d0v d ((slotAt d t (bytes k level)).idx)).k) with
      | false =>
        rw [removeF_val_nomatch K d0v f d t k level htag hc]
        exact hwf
      | true =>
        rw [removeF_val_match K d0v f d t k level htag hc]
        exact free_update_WF K d0v d pth hwf t (bytes k level) _ 0 _ ht hb htag
    | NIL =>
      rw [removeF_nil K d0v f d t k level htag]
      exact hwf
    | FREE =>
      rw [removeF_free K d0v f d t k level htag]
      exact hwf

/-! ### Pool shapes produced by `alloc` -/

theorem arr_add_get_all {α : Type} (a : Arr α) (d0 : α) (i : Nat)
    (h : a.size ≤ a.buf.length) : (a.add d0).1.get d0 i = a.get d0 i := by
  by_cases hi : i < a.size
  · exact arr_add_get_lt a d0 d0 i h hi
  · unfold Arr.add
    split
    next hfull =>
      have hlen : a.buf.length = a.size := by omega
      show (a.resize_pool d0 (a.size + a.growth)).get d0 i = a.get d0 i
      unfold Arr.resize_pool
      have hmin : Nat.min a.size (a.size + a.growth) = a.size := Nat.min_eq_left (by omega)
      split
      next hlt =>
        show ((a.buf.take (Nat.min a.size (a.size + a.growth)) ++ _).getD i d0) = a.buf.getD i d0
        rw [hmin]
        have htkl : (a.buf.take a.size).length = a.size := by
          rw [List.length_take]
          omega
        rw [List.getD_append_right _ _ _ _ (by omega), getD_replicate,
            List.getD_eq_default _ _ (by omega)]
      next hge => rfl
    next hroom => rfl

theorem tabAt_add_set_set {ν : Type} (d : Dict ν) (va : Arr (Entry ν)) (n : Nat)
    (newTab parentTab : Table) (t : Nat)
    (hts : d.m_tabs.size ≤ d.m_tabs.buf.length) (hg : 1 ≤ d.m_tabs.growth)
    (ht : t < d.m_tabs.size) :
    ∀ ti, tabAt (⟨va, ((d.m_tabs.add table0).1.set d.m_tabs.size newTab).set t parentTab,
        n⟩ : Dict ν) ti =
      (if ti = t then parentTab
       else if ti = d.m_tabs.size then newTab else tabAt d ti) := by
  intro ti
  have hlen1 : d.m_tabs.size + 1 ≤ (d.m_tabs.add table0).1.buf.length :=
    (arr_add_len d.m_tabs table0 hts hg).1
  by_cases hti : ti = t
  · subst hti
    show (((d.m_tabs.add table0).1.set d.m_tabs.size newTab).set ti parentTab).get table0 ti = _
    rw [arr_get_set_self _ _ _ _ (by rw [arr_set_len]; omega)]
    simp
  · show (((d.m_tabs.add table0).1.set d.m_tabs.size newTab).set t parentTab).get table0 ti = _
    rw [arr_get_set_ne _ _ _ _ _ hti]
    by_cases hnt : ti = d.m_tabs.size
    · subst hnt
      rw [arr_get_set_self _ _ _ _ (by omega)]
      simp [hti]
    · rw [arr_get_set_ne _ _ _ _ _ hnt, arr_add_get_all _ _ _ hts]
      simp [hti, hnt]
      rfl

theorem entAt_add_set {ν : Type} (d0v : ν) (d : Dict ν) (ta : Arr Table) (n : Nat)
    (x : Entry ν) (hle : d.m_vals.size ≤ d.m_vals.buf.length) (hg : 1 ≤ d.m_vals.growth) :
    ∀ e2, entAt d0v (⟨(d.m_vals.add (entry0 d0v)).1.set d.m_vals.size x, ta, n⟩ : Dict ν) e2 =
      (if e2 = d.m_vals.size then x else entAt d0v d e2) := by
  intro e2
  have hlen1 : d.m_vals.size + 1 ≤ (d.m_vals.add (entry0 d0v)).1.buf.length :=
    (arr_add_len d.m_vals (entry0 d0v) hle hg).1
  by_cases he : e2 = d.m_vals.size
  · subst he
    show ((d.m_vals.add (entry0 d0v)).1.set d.m_vals.size x).get (entry0 d0v) d.m_vals.size = _
    rw [arr_get_set_self _ _ _ _ (by omega)]
    simp
  · show ((d.m_vals.add (entry0 d0v)).1.set d.m_vals.size x).get (entry0 d0v) e2 = _
    rw [arr_get_set_ne _ _ _ _ _ he, arr_add_get_all _ _ _ hle]
    simp [he]
    rfl

/-! ### Path freshness and the collision depth bound -/

theorem fresh_path {ν : Type} (K : Nat) (d0v : ν) (d : Dict ν) (pth : Nat → List Nat)
    (hwf : DictWF K d0v d pth) (t b : Nat) (ht : t < d.m_tabs.size) (hb : b < 256)
    (hnt : (slotAt d t b).tag ≠ Tag.TAB) :
    ∀ tj, tj < d.m_tabs.size → pth tj ≠ pth t ++ [b] := by
  intro tj htj heq
  have hne0 : tj ≠ 0 := by
    intro hc
    subst hc
    rw [hwf.pth_root] at heq
    exact absurd heq.symm (by simp)
  obtain ⟨ti, hti, b2, hb2, hs⟩ := hwf.parent_ok tj htj hne0
  have htagj : (slotAt d ti b2).tag = Tag.TAB := by rw [hs]
  obtain ⟨hlt, hpc⟩ := hwf.tab_ok ti hti b2 hb2 htagj
  have hidx : (slotAt d ti b2).idx = tj := by rw [hs]
  rw [hidx] at hpc
  have hcomb : pth ti ++ [b2] = pth t ++ [b] := by rw [← hpc, heq]
  obtain ⟨h1, h2⟩ := List.append_inj' hcomb (by simp)
  have hb2b : b2 = b := by simpa using h2
  have hteq : ti = t := hwf.pth_inj ti hti t ht h1
  apply hnt
  rw [← hteq, ← hb2b, hs]

theorem collision_level_lt {K : Nat} {k ko : List Nat} {level : Nat}
    (hk : KeyWF K k) (hko : KeyWF K ko)
    (heq : ko.take (level + 1) = k.take (level + 1)) (hne : cmp K k ko = false)
    (hlev : level < K) : level + 1 < K := by
  by_contra hc
  have h1 : ko.take (level + 1) = ko := List.take_of_length_le (by rw [hko.1]; omega)
  have h2 : k.take (level + 1) = k := List.take_of_length_le (by rw [hk.1]; omega)
  rw [h1, h2] at heq
  rw [← heq] at hne
  rw [cmp_refl] at hne
  exact Bool.noConfusion hne

/-! ### The terminal branches of `alloc` preserve well-formedness -/

theorem free_reuse_WF {ν : Type} (K : Nat) (d0v : ν) (d : Dict ν) (pth : Nat → List Nat)
    (hwf : DictWF K d0v d pth) (t b : Nat) (rr rt : Nat)
    (ht : t < d.m_tabs.size) (hb : b < 256)
    (htag : (slotAt d t b).tag = Tag.FREE) :
    DictWF K d0v
      (⟨d.m_vals.set ((slotAt d t b).idx)
          ⟨(entAt d0v d ((slotAt d t b).idx)).k, (entAt d0v d ((slotAt d t b).idx)).v, rr⟩,
        d.m_tabs.set t ⟨updFn (tabAt d t).idx b ⟨Tag.VAL, (slotAt d t b).idx⟩, rt⟩,
        d.m_size + 1⟩ : Dict ν) pth := by
  have hlen : t < d.m_tabs.buf.length := lt_of_lt_of_le ht hwf.tabs_size_le
  obtain ⟨heLT, hKey, hTake⟩ := hwf.free_ok t ht b hb htag
  have hslot : ∀ ti b2, slotAt (⟨d.m_vals.set ((slotAt d t b).idx)
          ⟨(entAt d0v d ((slotAt d t b).idx)).k, (entAt d0v d ((slotAt d t b).idx)).v, rr⟩,
        d.m_tabs.set t ⟨updFn (tabAt d t).idx b ⟨Tag.VAL, (slotAt d t b).idx⟩, rt⟩,
        d.m_size + 1⟩ : Dict ν) ti b2 =
      (if ti = t then (if b2 = b
        then (⟨Tag.VAL, (slotAt d t b).idx⟩ : Slot) else slotAt d ti b2)
       else slotAt d ti b2) := by
    intro ti b2
    by_cases hti : ti = t
    · subst hti
      show ((tabAt _ ti).idx b2) = _
      rw [tabAt_set_self d _ _ ti _ hlen]
      by_cases hb2 : b2 = b
      · subst hb2
        simp [updFn_self]
      · simp [updFn_ne _ _ _ hb2, hb2]
        rfl
    · show ((tabAt _ ti).idx b2) = _
      rw [tabAt_set_ne d _ _ t ti _ hti]
      simp [hti]
      rfl
  have hent : ∀ e2, (entAt d0v (⟨d.m_vals.set ((slotAt d t b).idx)
          ⟨(entAt d0v d ((slotAt d t b).idx)).k, (entAt d0v d ((slotAt d t b).idx)).v, rr⟩,
        d.m_tabs.set t ⟨updFn (tabAt d t).idx b ⟨Tag.VAL, (slotAt d t b).idx⟩, rt⟩,
        d.m_size + 1⟩ : Dict ν) e2).k = (entAt d0v d e2).k := by
    intro e2
    exact entAt_set_k d0v d _ _ _ e2 _ _ _ rfl
  refine ⟨?_, ?_, ?_, ?_, ?_, hwf.pth_root, ?_, ?_, ?_, ?_, ?_, ?_, ?_⟩
  · show (d.m_vals.set _ _).size ≤ (d.m_vals.set _ _).buf.length
    rw [arr_set_size, arr_set_len]
    exact hwf.vals_size_le
  · show (d.m_tabs.set _ _).size ≤ (d.m_tabs.set _ _).buf.length
    rw [arr_set_size, arr_set_len]
    exact hwf.tabs_size_le
  · show 1 ≤ (d.m_vals.set _ _).growth
    rw [arr_set_growth]
    exact hwf.vals_growth
  · show 1 ≤ (d.m_tabs.set _ _).growth
    rw [arr_set_growth]
    exact hwf.tabs_growth
  · exact hwf.root_live
  · exact hwf.pth_len
  · exact hwf.pth_inj
  · intro ti hti b2 hb2 htag2
    rw [hslot ti b2] at htag2 ⊢
    by_cases hti2 : ti = t
    · subst hti2
      by_cases hb3 : b2 = b
      · subst hb3
        simp at htag2
      · simp only [if_pos rfl, if_neg hb3] at htag2 ⊢
        exact hwf.tab_ok ti hti b2 hb2 htag2
    · simp only [if_neg hti2] at htag2 ⊢
      exact hwf.tab_ok ti hti b2 hb2 htag2
  · intro ti hti b2 hb2 htag2
    rw [hslot ti b2] at htag2 ⊢
    by_cases hti2 : ti = t
    · subst hti2
      by_cases hb3 : b2 = b
      · subst hb3
        simp only [if_pos rfl]
        rw [hent]
        exact ⟨heLT, hKey, hTake⟩
      · simp only [if_pos rfl, if_neg hb3] at htag2 ⊢
        obtain ⟨h1, h2, h3⟩ := hwf.val_ok ti hti b2 hb2 htag2
        rw [hent]
        exact ⟨h1, h2, h3⟩
    · simp only [if_neg hti2] at htag2 ⊢
      obtain ⟨h1, h2, h3⟩ := hwf.val_ok ti hti b2 hb2 htag2
      rw [hent]
      exact ⟨h1, h2, h3⟩
  · intro ti hti b2 hb2 htag2
    rw [hslot ti b2] at htag2 ⊢
    by_cases hti2 : ti = t
    · subst hti2
      by_cases hb3 : b2 = b
      · subst hb3
        simp at htag2
      · simp only [if_pos rfl, if_neg hb3] at htag2 ⊢
        obtain ⟨h1, h2, h3⟩ := hwf.free_ok ti hti b2 hb2 htag2
        rw [hent]
        exact ⟨h1, h2, h3⟩
    · simp only [if_neg hti2] at htag2 ⊢
      obtain ⟨h1, h2, h3⟩ := hwf.free_ok ti hti b2 hb2 htag2
      rw [hent]
      exact ⟨h1, h2, h3⟩
  · intro tj htj hne
    obtain ⟨ti, hti, b2, hb2, hs⟩ := hwf.parent_ok tj htj hne
    refine ⟨ti, hti, b2, hb2, ?_⟩
    rw [hslot ti b2]
    by_cases hti2 : ti = t
    · subst hti2
      by_cases hb3 : b2 = b
      · subst hb3
        rw [hs] at htag
        simp at htag
      · simp only [if_pos rfl, if_neg hb3]
        exact hs
    · simp only [if_neg hti2]
      exact hs
  · show d.m_size + 1 = _
    have hsz := hwf.size_ok
    have htc : tabValCount (⟨updFn (tabAt d t).idx b
          ⟨Tag.VAL, (slotAt d t b).idx⟩, rt⟩ : Table) +
        (if ((tabAt d t).idx b).tag = Tag.VAL then 1 else 0) =
        tabValCount (⟨(tabAt d t).idx, (tabAt d t).refs⟩ : Table) +
        (if (Slot.mk Tag.VAL ((slotAt d t b).idx)).tag = Tag.VAL then 1 else 0) :=
      tabValCount_updFn _ _ _ _ _ hb
    have heta : (⟨(tabAt d t).idx, (tabAt d t).refs⟩ : Table) = tabAt d t := rfl
    rw [heta] at htc
    have htag3 : ((tabAt d t).idx b).tag = Tag.FREE := htag
    rw [htag3] at htc
    simp at htc
    have hagree := sum_map_range_agree d.m_tabs.size
      (fun ti => tabValCount (tabAt d ti))
      (fun ti => tabValCount (tabAt (⟨d.m_vals.set ((slotAt d t b).idx)
          ⟨(entAt d0v d ((slotAt d t b).idx)).k, (entAt d0v d ((slotAt d t b).idx)).v, rr⟩,
        d.m_tabs.set t ⟨updFn (tabAt d t).idx b ⟨Tag.VAL, (slotAt d t b).idx⟩, rt⟩,
        d.m_size + 1⟩ : Dict ν) ti)) t ht
      (fun i _ hit => congrArg tabValCount (tabAt_set_ne d _ _ t i _ hit))
    have htabt : tabAt (⟨d.m_vals.set ((slotAt d t b).idx)
          ⟨(entAt d0v d ((slotAt d t b).idx)).k, (entAt d0v d ((slotAt d t b).idx)).v, rr⟩,
        d.m_tabs.set t ⟨updFn (tabAt d t).idx b ⟨Tag.VAL, (slotAt d t b).idx⟩, rt⟩,
        d.m_size + 1⟩ : Dict ν) t =
        ⟨updFn (tabAt d t).idx b ⟨Tag.VAL, (slotAt d t b).idx⟩, rt⟩ :=
      tabAt_set_self d _ _ t _ hlen
    beta_reduce at hagree
    rw [htabt] at hagree
    have hv : valCount d =
        ((List.range d.m_tabs.size).map (fun ti => tabValCount (tabAt d ti))).sum := rfl
    rw [hv] at hsz
    show d.m_size + 1 = ((List.range d.m_tabs.size).map _).sum
    omega

theorem nil_insert_WF {ν : Type} (K : Nat) (d0v : ν) (d : Dict ν) (pth : Nat → List Nat)
    (hwf : DictWF K d0v d pth) (k : List Nat) (hk : KeyWF K k) (t b : Nat)
    (vv : ν) (rr rt : Nat) (ht : t < d.m_tabs.size) (hb : b < 256)
    (htag : (slotAt d t b).tag = Tag.NIL)
    (hTk : k.take ((pth t).length + 1) = pth t ++ [b]) :
    DictWF K d0v
      (⟨(d.m_vals.add (entry0 d0v)).1.set d.m_vals.size ⟨k, vv, rr⟩,
        d.m_tabs.set t ⟨updFn (tabAt d t).idx b ⟨Tag.VAL, d.m_vals.size⟩, rt⟩,
        d.m_size + 1⟩ : Dict ν) pth := by
  have hlen : t < d.m_tabs.buf.length := lt_of_lt_of_le ht hwf.tabs_size_le
  have hvlen : d.m_vals.size + 1 ≤ (d.m_vals.add (entry0 d0v)).1.buf.length :=
    (arr_add_len d.m_vals (entry0 d0v) hwf.vals_size_le hwf.vals_growth).1
  have hslot : ∀ ti b2, slotAt (⟨(d.m_vals.add (entry0 d0v)).1.set d.m_vals.size ⟨k, vv, rr⟩,
        d.m_tabs.set t ⟨updFn (tabAt d t).idx b ⟨Tag.VAL, d.m_vals.size⟩, rt⟩,
        d.m_size + 1⟩ : Dict ν) ti b2 =
      (if ti = t then (if b2 = b
        then (⟨Tag.VAL, d.m_vals.size⟩ : Slot) else slotAt d ti b2)
       else slotAt d ti b2) := by
    intro ti b2
    by_cases hti : ti = t
    · subst hti
      show ((tabAt _ ti).idx b2) = _
      rw [tabAt_set_self d _ _ ti _ hlen]
      by_cases hb2 : b2 = b
      · subst hb2
        simp [updFn_self]
      · simp [updFn_ne _ _ _ hb2, hb2]
        rfl
    · show ((tabAt _ ti).idx b2) = _
      rw [tabAt_set_ne d _ _ t ti _ hti]
      simp [hti]
      rfl
  have hent := entAt_add_set d0v d
    (d.m_tabs.set t ⟨updFn (tabAt d t).idx b ⟨Tag.VAL, d.m_vals.size⟩, rt⟩)
    (d.m_size + 1) (⟨k, vv, rr⟩ : Entry ν) hwf.vals_size_le hwf.vals_growth
  refine ⟨?_, ?_, ?_, ?_, ?_, hwf.pth_root, ?_, ?_, ?_, ?_, ?_, ?_, ?_⟩
  · show ((d.m_vals.add (entry0 d0v)).1.set _ _).size ≤
      ((d.m_vals.add (entry0 d0v)).1.set _ _).buf.length
    rw [arr_set_size, arr_set_len, arr_add_size]
    omega
  · show (d.m_tabs.set _ _).size ≤ (d.m_tabs.set _ _).buf.length
    rw [arr_set_size, arr_set_len]
    exact hwf.tabs_size_le
  · show 1 ≤ ((d.m_vals.add (entry0 d0v)).1.set _ _).growth
    rw [arr_set_growth, arr_add_growth]
    exact hwf.vals_growth
  · show 1 ≤ (d.m_tabs.set _ _).growth
    rw [arr_set_growth]
    exact hwf.tabs_growth
  · exact hwf.root_live
  · exact hwf.pth_len
  · exact hwf.pth_inj
  · intro ti hti b2 hb2 htag2
    rw [hslot ti b2] at htag2 ⊢
    by_cases hti2 : ti = t
    · subst hti2
      by_cases hb3 : b2 = b
      · subst hb3
        simp at htag2
      · simp only [eq_self_iff_true, if_true, if_neg hb3] at htag2 ⊢
        exact hwf.tab_ok ti hti b2 hb2 htag2
    · simp only [if_neg hti2] at htag2 ⊢
      exact hwf.tab_ok ti hti b2 hb2 htag2
  · intro ti hti b2 hb2 htag2
    have hsz : ((d.m_vals.add (entry0 d0v)).1.set d.m_vals.size
        (⟨k, vv, rr⟩ : Entry ν)).size = d.m_vals.size + 1 := by
      rw [arr_set_size, arr_add_size]
    rw [hslot ti b2] at htag2 ⊢
    by_cases hti2 : ti = t
    · subst hti2
      by_cases hb3 : b2 = b
      · subst hb3
        simp only [eq_self_iff_true, if_true]
        have hentNew := hent d.m_vals.size
        rw [if_pos rfl] at hentNew
        exact ⟨by rw [hsz]; exact Nat.lt_succ_self d.m_vals.size,
          by simp [hentNew, hk], by simp [hentNew, hTk]⟩
      · simp only [eq_self_iff_true, if_true, if_neg hb3] at htag2 ⊢
        obtain ⟨h1, h2, h3⟩ := hwf.val_ok ti hti b2 hb2 htag2
        have hentOld := hent ((slotAt d ti b2).idx)
        rw [if_neg (by omega : ¬ (slotAt d ti b2).idx = d.m_vals.size)] at hentOld
        rw [hsz, hentOld]
        exact ⟨by omega, h2, h3⟩
    · simp only [if_neg hti2] at htag2 ⊢
      obtain ⟨h1, h2, h3⟩ := hwf.val_ok ti hti b2 hb2 htag2
      have hentOld := hent ((slotAt d ti b2).idx)
      rw [if_neg (by omega : ¬ (slotAt d ti b2).idx = d.m_vals.size)] at hentOld
      rw [hsz, hentOld]
      exact ⟨by omega, h2, h3⟩
  · intro ti hti b2 hb2 htag2
    have hsz : ((d.m_vals.add (entry0 d0v)).1.set d.m_vals.size
        (⟨k, vv, rr⟩ : Entry ν)).size = d.m_vals.size + 1 := by
      rw [arr_set_size, arr_add_size]
    rw [hslot ti b2] at htag2 ⊢
    by_cases hti2 : ti = t
    · subst hti2
      by_cases hb3 : b2 = b
      · subst hb3
        simp at htag2
      · simp only [eq_self_iff_true, if_true, if_neg hb3] at htag2 ⊢
        obtain ⟨h1, h2, h3⟩ := hwf.free_ok ti hti b2 hb2 htag2
        have hentOld := hent ((slotAt d ti b2).idx)
        rw [if_neg (by omega : ¬ (slotAt d ti b2).idx = d.m_vals.size)] at hentOld
        rw [hsz, hentOld]
        exact ⟨by omega, h2, h3⟩
    · simp only [if_neg hti2] at htag2 ⊢
      obtain ⟨h1, h2, h3⟩ := hwf.free_ok ti hti b2 hb2 htag2
      have hentOld := hent ((slotAt d ti b2).idx)
      rw [if_neg (by omega : ¬ (slotAt d ti b2).idx = d.m_vals.size)] at hentOld
      rw [hsz, hentOld]
      exact ⟨by omega, h2, h3⟩
  · intro tj htj hne
    obtain ⟨ti, hti, b2, hb2, hs⟩ := hwf.parent_ok tj htj hne
    refine ⟨ti, hti, b2, hb2, ?_⟩
    rw [hslot ti b2]
    by_cases hti2 : ti = t
    · subst hti2
      by_cases hb3 : b2 = b
      · subst hb3
        rw [hs] at htag
        simp at htag
      · simp only [if_pos rfl, if_neg hb3]
        exact hs
    · simp only [if_neg hti2]
      exact hs
  · show d.m_size + 1 = _
    have hsz := hwf.size_ok
    have htc : tabValCount (⟨updFn (tabAt d t).idx b
          ⟨Tag.VAL, d.m_vals.size⟩, rt⟩ : Table) +
        (if ((tabAt d t).idx b).tag = Tag.VAL then 1 else 0) =
        tabValCount (⟨(tabAt d t).idx, (tabAt d t).refs⟩ : Table) +
        (if (Slot.mk Tag.VAL d.m_vals.size).tag = Tag.VAL then 1 else 0) :=
      tabValCount_updFn _ _ _ _ _ hb
    have heta : (⟨(tabAt d t).idx, (tabAt d t).refs⟩ : Table) = tabAt d t := rfl
    rw [heta] at htc
    have htag3 : ((tabAt d t).idx b).tag = Tag.NIL := htag
    rw [htag3] at htc
    simp at htc
    have hagree := sum_map_range_agree d.m_tabs.size
      (fun ti => tabValCount (tabAt d ti))
      (fun ti => tabValCount (tabAt (⟨(d.m_vals.add (entry0 d0v)).1.set d.m_vals.size
          ⟨k, vv, rr⟩,
        d.m_tabs.set t ⟨updFn (tabAt d t).idx b ⟨Tag.VAL, d.m_vals.size⟩, rt⟩,
        d.m_size + 1⟩ : Dict ν) ti)) t ht
      (fun i _ hit => congrArg tabValCount (tabAt_set_ne d _ _ t i _ hit))
    have htabt : tabAt (⟨(d.m_vals.add (entry0 d0v)).1.set d.m_vals.size ⟨k, vv, rr⟩,
        d.m_tabs.set t ⟨updFn (tabAt d t).idx b ⟨Tag.VAL, d.m_vals.size⟩, rt⟩,
        d.m_size + 1⟩ : Dict ν) t =
        ⟨updFn (tabAt d t).idx b ⟨Tag.VAL, d.m_vals.size⟩, rt⟩ :=
      tabAt_set_self d _ _ t _ hlen
    beta_reduce at hagree
    rw [htabt] at hagree
    have hv : valCount d =
        ((List.range d.m_tabs.size).map (fun ti => tabValCount (tabAt d ti))).sum := rfl
    rw [hv] at hsz
    show d.m_size + 1 = ((List.range d.m_tabs.size).map _).sum
    omega

/-! ### The collision split of `alloc` preserves well-formedness -/

theorem split_WF {ν : Type} (K : Nat) (d0v : ν) (d : Dict ν) (pth : Nat → List Nat)
    (hwf : DictWF K d0v d pth) (k : List Nat) (hk : KeyWF K k) (t level e : Nat)
    (ht : t < d.m_tabs.size) (hpt : pth t = k.take level) (hlev : (pth t).length = level)
    (htag : slotAt d t (bytes k level) = ⟨Tag.VAL, e⟩)
    (hcmp : cmp K k ((entAt d0v d e).k) = false) :
    DictWF K d0v
      (⟨d.m_vals,
        ((d.m_tabs.add table0).1.set d.m_tabs.size
            ⟨updFn (fun _ => nilSlot) (bytes ((entAt d0v d e).k) (level + 1))
              ⟨Tag.VAL, e⟩, 1⟩).set t
          ⟨updFn (tabAt d t).idx (bytes k level) ⟨Tag.TAB, d.m_tabs.size⟩, (tabAt d t).refs⟩,
        d.m_size⟩ : Dict ν)
      (fun x => if x = d.m_tabs.size then k.take (level + 1) else pth x) := by
  have hlevK : level < K := hlev ▸ hwf.pth_len t ht
  have hb : bytes k level < 256 := keyByte_lt hk hlevK
  have htagT : (slotAt d t (bytes k level)).tag = Tag.VAL := by rw [htag]
  obtain ⟨heLT, hKo, hTko⟩ := hwf.val_ok t ht (bytes k level) hb htagT
  have hidxE : (slotAt d t (bytes k level)).idx = e := by rw [htag]
  rw [hidxE] at heLT hKo hTko
  have hkTake : k.take (level + 1) = pth t ++ [bytes k level] := by
    rw [hpt, ← take_extend hk.1 hlevK]
  have hkoTake : ((entAt d0v d e).k).take (level + 1) = k.take (level + 1) := by
    rw [hlev] at hTko
    rw [hTko]
    exact hkTake.symm
  have hlev1 : level + 1 < K := collision_level_lt hk hKo hkoTake hcmp hlevK
  have hbo : bytes ((entAt d0v d e).k) (level + 1) < 256 := keyByte_lt hKo hlev1
  have hnt1 : 1 ≤ d.m_tabs.size := hwf.root_live
  have htabs := tabAt_add_set_set d d.m_vals d.m_size
    (⟨updFn (fun _ => nilSlot) (bytes ((entAt d0v d e).k) (level + 1)) ⟨Tag.VAL, e⟩, 1⟩ : Table)
    (⟨updFn (tabAt d t).idx (bytes k level) ⟨Tag.TAB, d.m_tabs.size⟩,
      (tabAt d t).refs⟩ : Table)
    t hwf.tabs_size_le hwf.tabs_growth ht
  have hslot : ∀ ti b2, slotAt (⟨d.m_vals,
        ((d.m_tabs.add table0).1.set d.m_tabs.size
            ⟨updFn (fun _ => nilSlot) (bytes ((entAt d0v d e).k) (level + 1))
              ⟨Tag.VAL, e⟩, 1⟩).set t
          ⟨updFn (tabAt d t).idx (bytes k level) ⟨Tag.TAB, d.m_tabs.size⟩, (tabAt d t).refs⟩,
        d.m_size⟩ : Dict ν) ti b2 =
      (if ti = t then (if b2 = bytes k level
          then (⟨Tag.TAB, d.m_tabs.size⟩ : Slot) else slotAt d ti b2)
       else if ti = d.m_tabs.size then
          (if b2 = bytes ((entAt d0v d e).k) (level + 1)
           then (⟨Tag.VAL, e⟩ : Slot) else nilSlot)
       else slotAt d ti b2) := by
    intro ti b2
    show (tabAt _ ti).idx b2 = _
    rw [htabs ti]
    by_cases h1 : ti = t
    · subst h1
      simp only [if_pos rfl]
      by_cases h2 : b2 = bytes k level
      · subst h2
        simp [updFn_self]
      · simp [updFn_ne _ _ _ h2, h2]
        rfl
    · simp only [if_neg h1]
      by_cases h2 : ti = d.m_tabs.size
      · subst h2
        simp only [if_pos rfl]
        by_cases h3 : b2 = bytes ((entAt d0v d e).k) (level + 1)
        · subst h3
          simp [updFn_self]
        · simp [updFn_ne _ _ _ h3, h3]
      · simp only [if_neg h2]
        rfl
  have hsz2 : (⟨d.m_vals,
        ((d.m_tabs.add table0).1.set d.m_tabs.size
            ⟨updFn (fun _ => nilSlot) (bytes ((entAt d0v d e).k) (level + 1))
              ⟨Tag.VAL, e⟩, 1⟩).set t
          ⟨updFn (tabAt d t).idx (bytes k level) ⟨Tag.TAB, d.m_tabs.size⟩, (tabAt d t).refs⟩,
        d.m_size⟩ : Dict ν).m_tabs.size = d.m_tabs.size + 1 := by
    show (((d.m_tabs.add table0).1.set _ _).set _ _).size = _
    rw [arr_set_size, arr_set_size, arr_add_size]
  have hfresh := fresh_path K d0v d pth hwf t (bytes k level) ht hb
    (by rw [htag]; exact fun hcon => Tag.noConfusion hcon)
  have hlen1 : d.m_tabs.size + 1 ≤ (d.m_tabs.add table0).1.buf.length :=
    (arr_add_len d.m_tabs table0 hwf.tabs_size_le hwf.tabs_growth).1
  have htklen : (k.take (level + 1)).length = level + 1 := by
    rw [List.length_take]
    have := hk.1
    exact Nat.min_eq_left (by omega)
  refine ⟨hwf.vals_size_le, ?_, hwf.vals_growth, ?_, ?_, ?_, ?_, ?_, ?_, ?_, ?_, ?_, ?_⟩
  · show (((d.m_tabs.add table0).1.set _ _).set _ _).size ≤
      (((d.m_tabs.add table0).1.set _ _).set _ _).buf.length
    rw [arr_set_size, arr_set_size, arr_add_size, arr_set_len, arr_set_len]
    omega
  · show 1 ≤ (((d.m_tabs.add table0).1.set _ _).set _ _).growth
    rw [arr_set_growth, arr_set_growth, arr_add_growth]
    exact hwf.tabs_growth
  · rw [hsz2]
    omega
  · show (if 0 = d.m_tabs.size then k.take (level + 1) else pth 0) = []
    rw [if_neg (by omega), hwf.pth_root]
  · intro ti hti
    rw [hsz2] at hti
    by_cases hnt : ti = d.m_tabs.size
    · show (if ti = d.m_tabs.size then k.take (level + 1) else pth ti).length < K
      rw [if_pos hnt, htklen]
      exact hlev1
    · show (if ti = d.m_tabs.size then k.take (level + 1) else pth ti).length < K
      rw [if_neg hnt]
      exact hwf.pth_len ti (by omega)
  · intro ti hti tj htj heq
    rw [hsz2] at hti htj
    by_cases h1 : ti = d.m_tabs.size <;> by_cases h2 : tj = d.m_tabs.size
    · omega
    · rw [if_pos h1, if_neg h2] at heq
      exact absurd (heq.symm.trans hkTake) (hfresh tj (by omega))
    · rw [if_neg h1, if_pos h2] at heq
      exact absurd (heq.trans hkTake) (hfresh ti (by omega))
    · rw [if_neg h1, if_neg h2] at heq
      exact hwf.pth_inj ti (by omega) tj (by omega) heq
  · intro ti hti b2 hb2 htag2
    rw [hsz2] at hti
    rw [hslot ti b2] at htag2 ⊢
    by_cases h1 : ti = t
    · by_cases h2 : b2 = bytes k level
      · simp only [if_pos h1, if_pos h2] at htag2 ⊢
        constructor
        · rw [hsz2]
          exact Nat.lt_succ_self _
        · simp only [if_true]
          rw [if_neg (show ¬ ti = d.m_tabs.size by omega), h1, h2, hkTake]
      · simp only [if_pos h1, if_neg h2] at htag2 ⊢
        obtain ⟨h3, h4⟩ := hwf.tab_ok ti (by omega) b2 hb2 htag2
        constructor
        · rw [hsz2]
          omega
        · rw [if_neg (show ¬ (slotAt d ti b2).idx = d.m_tabs.size by omega),
              if_neg (show ¬ ti = d.m_tabs.size by omega)]
          exact h4
    · by_cases h2 : ti = d.m_tabs.size
      · simp only [if_neg h1, if_pos h2] at htag2
        by_cases h3 : b2 = bytes ((entAt d0v d e).k) (level + 1)
        · rw [if_pos h3] at htag2
          exact absurd htag2 (by simp)
        · rw [if_neg h3] at htag2
          exact absurd htag2 (by simp [nilSlot])
      · simp only [if_neg h1, if_neg h2] at htag2 ⊢
        obtain ⟨h3, h4⟩ := hwf.tab_ok ti (by omega) b2 hb2 htag2
        constructor
        · rw [hsz2]
          omega
        · rw [if_neg (show ¬ (slotAt d ti b2).idx = d.m_tabs.size by omega)]
          exact h4
  · intro ti hti b2 hb2 htag2
    rw [hsz2] at hti
    rw [hslot ti b2] at htag2 ⊢
    by_cases h1 : ti = t
    · by_cases h2 : b2 = bytes k level
      · simp only [if_pos h1, if_pos h2] at htag2
        exact absurd htag2 (by simp)
      · simp only [if_pos h1, if_neg h2] at htag2 ⊢
        obtain ⟨h3, h4, h5⟩ := hwf.val_ok ti (by omega) b2 hb2 htag2
        refine ⟨h3, h4, ?_⟩
        rw [if_neg (show ¬ ti = d.m_tabs.size by omega)]
        exact h5
    · by_cases h2 : ti = d.m_tabs.size
      · simp only [if_neg h1, if_pos h2] at htag2 ⊢
        by_cases h3 : b2 = bytes ((entAt d0v d e).k) (level + 1)
        · rw [if_pos h3] at htag2 ⊢
          refine ⟨heLT, hKo, ?_⟩
          show List.take ((List.take (level + 1) k).length + 1) ((entAt d0v d e).k) =
            List.take (level + 1) k ++ [b2]
          rw [htklen, h3, take_extend hKo.1 hlev1, hkoTake]
        · rw [if_neg h3] at htag2
          exact absurd htag2 (by simp [nilSlot])
      · simp only [if_neg h1, if_neg h2] at htag2 ⊢
        obtain ⟨h3, h4, h5⟩ := hwf.val_ok ti (by omega) b2 hb2 htag2
        exact ⟨h3, h4, h5⟩
  · intro ti hti b2 hb2 htag2
    rw [hsz2] at hti
    rw [hslot ti b2] at htag2 ⊢
    by_cases h1 : ti = t
    · by_cases h2 : b2 = bytes k level
      · simp only [if_pos h1, if_pos h2] at htag2
        exact absurd htag2 (by simp)
      · simp only [if_pos h1, if_neg h2] at htag2 ⊢
        obtain ⟨h3, h4, h5⟩ := hwf.free_ok ti (by omega) b2 hb2 htag2
        refine ⟨h3, h4, ?_⟩
        rw [if_neg (show ¬ ti = d.m_tabs.size by omega)]
        exact h5
    · by_cases h2 : ti = d.m_tabs.size
      · simp only [if_neg h1, if_pos h2] at htag2
        by_cases h3 : b2 = bytes ((entAt d0v d e).k) (level + 1)
        · rw [if_pos h3] at htag2
          exact absurd htag2 (by simp)
        · rw [if_neg h3] at htag2
          exact absurd htag2 (by simp [nilSlot])
      · simp only [if_neg h1, if_neg h2] at htag2 ⊢
        obtain ⟨h3, h4, h5⟩ := hwf.free_ok ti (by omega) b2 hb2 htag2
        exact ⟨h3, h4, h5⟩
  · intro tj htj hne
    rw [hsz2] at htj
    by_cases hjnt : tj = d.m_tabs.size
    · refine ⟨t, by rw [hsz2]; omega, bytes k level, hb, ?_⟩
      rw [hslot t (bytes k level)]
      simp [hjnt]
    · obtain ⟨ti, hti, b2, hb2, hs⟩ := hwf.parent_ok tj (by omega) hne
      refine ⟨ti, by rw [hsz2]; omega, b2, hb2, ?_⟩
      rw [hslot ti b2]
      by_cases h1 : ti = t
      · by_cases h2 : b2 = bytes k level
        · rw [h1, h2] at hs
          rw [hs] at htagT
          exact absurd htagT (by simp [hs])
        · simp only [if_pos h1, if_neg h2]
          exact hs
      · have h2 : ti ≠ d.m_tabs.size := by omega
        simp only [if_neg h1, if_neg h2]
        exact hs
  · show d.m_size = _
    have hsz := hwf.size_ok
    have htcP : tabValCount (⟨updFn (tabAt d t).idx (bytes k level)
          ⟨Tag.TAB, d.m_tabs.size⟩, (tabAt d t).refs⟩ : Table) +
        (if ((tabAt d t).idx (bytes k level)).tag = Tag.VAL then 1 else 0) =
        tabValCount (⟨(tabAt d t).idx, (tabAt d t).refs⟩ : Table) +
        (if (Slot.mk Tag.TAB d.m_tabs.size).tag = Tag.VAL then 1 else 0) :=
      tabValCount_updFn _ _ _ _ _ hb
    have heta : (⟨(tabAt d t).idx, (tabAt d t).refs⟩ : Table) = tabAt d t := rfl
    have htagT' : ((tabAt d t).idx (bytes k level)).tag = Tag.VAL := htagT
    rw [heta, htagT'] at htcP
    simp at htcP
    have htcN : tabValCount (⟨updFn (fun _ => nilSlot)
          (bytes ((entAt d0v d e).k) (level + 1)) ⟨Tag.VAL, e⟩, 1⟩ : Table) +
        (if ((fun (_ : Nat) => nilSlot) (bytes ((entAt d0v d e).k) (level + 1))).tag = Tag.VAL
         then 1 else 0) =
        tabValCount (⟨fun _ => nilSlot, 0⟩ : Table) +
        (if (Slot.mk Tag.VAL e).tag = Tag.VAL then 1 else 0) :=
      tabValCount_updFn _ _ _ _ _ hbo
    rw [show tabValCount (⟨fun _ => nilSlot, 0⟩ : Table) = 0 from tabValCount_init] at htcN
    rw [if_neg (show ¬ ((fun (_ : Nat) => nilSlot)
          (bytes ((entAt d0v d e).k) (level + 1))).tag = Tag.VAL
        from fun hcon => Tag.noConfusion hcon), if_pos rfl] at htcN
    show d.m_size = ((List.range (⟨d.m_vals,
        ((d.m_tabs.add table0).1.set d.m_tabs.size
            ⟨updFn (fun _ => nilSlot) (bytes ((entAt d0v d e).k) (level + 1))
              ⟨Tag.VAL, e⟩, 1⟩).set t
          ⟨updFn (tabAt d t).idx (bytes k level) ⟨Tag.TAB, d.m_tabs.size⟩, (tabAt d t).refs⟩,
        d.m_size⟩ : Dict ν).m_tabs.size).map _).sum
    rw [hsz2, sum_map_range_succ]
    have hagree := sum_map_range_agree d.m_tabs.size
      (fun ti => tabValCount (tabAt d ti))
      (fun ti => tabValCount (tabAt (⟨d.m_vals,
        ((d.m_tabs.add table0).1.set d.m_tabs.size
            ⟨updFn (fun _ => nilSlot) (bytes ((entAt d0v d e).k) (level + 1))
              ⟨Tag.VAL, e⟩, 1⟩).set t
          ⟨updFn (tabAt d t).idx (bytes k level) ⟨Tag.TAB, d.m_tabs.size⟩, (tabAt d t).refs⟩,
        d.m_size⟩ : Dict ν) ti)) t ht
      (fun i hi hit => congrArg tabValCount
        (by rw [htabs i, if_neg hit, if_neg (by omega)]))
    beta_reduce at hagree
    have htabT := htabs t
    rw [if_pos rfl] at htabT
    rw [htabT] at hagree
    have htabN := htabs d.m_tabs.size
    rw [if_neg (by omega), if_pos rfl] at htabN
    rw [htabN]
    have hv : valCount d =
        ((List.range d.m_tabs.size).map (fun ti => tabValCount (tabAt d ti))).sum := rfl
    rw [hv] at hsz
    omega

/-! ### The main induction over `alloc`: fuel-stabilization and frame facts -/

theorem allocF_val_split {ν : Type} (d0v : ν) (fuel : Nat) (d : Dict ν) (t : Nat)
    (k : List Nat) (level : Nat) (h : (slotAt d t (bytes k level)).tag = Tag.VAL)
    (hts : d.m_tabs.size ≤ d.m_tabs.buf.length) (hg : 1 ≤ d.m_tabs.growth)
    (ht : t < d.m_tabs.size) :
    allocF d0v (fuel + 1) d t k level =
      allocF d0v fuel
        (⟨d.m_vals,
          ((d.m_tabs.add table0).1.set d.m_tabs.size
              ⟨updFn (fun _ => nilSlot)
                  (bytes ((entAt d0v d ((slotAt d t (bytes k level)).idx)).k) (level + 1))
                  (slotAt d t (bytes k level)), 1⟩).set t
            ⟨updFn (tabAt d t).idx (bytes k level) ⟨Tag.TAB, d.m_tabs.size⟩,
              (tabAt d t).refs⟩,
          d.m_size⟩ : Dict ν)
        d.m_tabs.size k (level + 1) := by
  rw [allocF_val d0v fuel d t k level h]
  have hpar : (((d.m_tabs.add table0).1.set d.m_tabs.size
      ⟨updFn (fun _ => nilSlot)
          (bytes ((entAt d0v d ((slotAt d t (bytes k level)).idx)).k) (level + 1))
          (slotAt d t (bytes k level)), 1⟩).get table0 t) = tabAt d t := by
    rw [arr_get_set_ne _ _ _ _ _ (by omega : t ≠ d.m_tabs.size)]
    exact arr_add_get_lt d.m_tabs table0 table0 t hts ht
  rw [hpar]

theorem alloc_main {ν : Type} (K : Nat) (d0v : ν) (k : List Nat) (hk : KeyWF K k) :
    ∀ (fuel : Nat) (d : Dict ν) (pth : Nat → List Nat) (t level : Nat),
    DictWF K d0v d pth → t < d.m_tabs.size →
    pth t = k.take level → (pth t).length = level →
    (slotAt d t (bytes k level)).tag ≠ Tag.TAB →
    ((slotAt d t (bytes k level)).tag = Tag.VAL →
      cmp K k ((entAt d0v d ((slotAt d t (bytes k level)).idx)).k) = false) →
    K - level ≤ fuel →
    allocF d0v fuel d t k level = allocF d0v (K - level) d t k level ∧
    (∀ ti, ti < d.m_tabs.size → ti ≠ t →
      tabAt (allocF d0v fuel d t k level).1 ti = tabAt d ti) ∧
    (∀ b2, b2 ≠ bytes k level →
      (tabAt (allocF d0v fuel d t k level).1 t).idx b2 = (tabAt d t).idx b2) ∧
    (∀ e2, e2 < d.m_vals.size →
      (entAt d0v (allocF d0v fuel d t k level).1 e2).k = (entAt d0v d e2).k ∧
      (entAt d0v (allocF d0v fuel d t k level).1 e2).v = (entAt d0v d e2).v) ∧
    d.m_tabs.size ≤ (allocF d0v fuel d t k level).1.m_tabs.size ∧
    d.m_vals.size ≤ (allocF d0v fuel d t k level).1.m_vals.size := by
  intro fuel
  induction fuel with
  | zero =>
    intro d pth t level hwf ht hpt hlev hntag hcol hfuel
    have hlevK : level < K := hlev ▸ hwf.pth_len t ht
    exact absurd hfuel (by omega)
  | succ f ih =>
    intro d pth t level hwf ht hpt hlev hntag hcol hfuel
    have hlevK : level < K := hlev ▸ hwf.pth_len t ht
    have hb : bytes k level < 256 := keyByte_lt hk hlevK
    obtain ⟨m, hm⟩ : ∃ m, K - level = m + 1 := ⟨K - level - 1, by omega⟩
    cases htag : (slotAt d t (bytes k level)).tag with
    | TAB => exact absurd htag hntag
    | NIL =>
      have hstepN := allocF_nil_wf d0v f d t k level htag hwf.vals_size_le hwf.vals_growth
      have hstate : (allocF d0v (f + 1) d t k level).1 =
          ⟨(d.m_vals.add (entry0 d0v)).1.set d.m_vals.size
              ⟨k, ((d.m_vals.add (entry0 d0v)).1.get (entry0 d0v) d.m_vals.size).v, 1⟩,
            d.m_tabs.set t
              ⟨updFn (tabAt d t).idx (bytes k level) ⟨Tag.VAL, d.m_vals.size⟩,
                (tabAt d t).refs + 1⟩,
            d.m_size + 1⟩ := by rw [hstepN]
      have hlenT : t < d.m_tabs.buf.length := lt_of_lt_of_le ht hwf.tabs_size_le
      refine ⟨?_, ?_, ?_, ?_, ?_, ?_⟩
      · rw [hstepN, hm, allocF_nil_wf d0v m d t k level htag hwf.vals_size_le hwf.vals_growth]
      · intro ti hti hne
        rw [hstate]
        exact tabAt_set_ne d _ _ _ _ _ hne
      · intro b2 hb2
        rw [hstate, tabAt_set_self d _ _ t _ hlenT]
        exact updFn_ne _ _ _ hb2
      · intro e2 he2
        rw [hstate]
        have h := entAt_add_set d0v d
          (d.m_tabs.set t ⟨updFn (tabAt d t).idx (bytes k level)
            ⟨Tag.VAL, d.m_vals.size⟩, (tabAt d t).refs + 1⟩) (d.m_size + 1)
          (⟨k, ((d.m_vals.add (entry0 d0v)).1.get (entry0 d0v) d.m_vals.size).v, 1⟩ : Entry ν)
          hwf.vals_size_le hwf.vals_growth e2
        rw [if_neg (by omega)] at h
        rw [h]
        exact ⟨rfl, rfl⟩
      · rw [hstate]
        show d.m_tabs.size ≤ (d.m_tabs.set t _).size
        rw [arr_set_size]
      · rw [hstate]
        show d.m_vals.size ≤ ((d.m_vals.add (entry0 d0v)).1.set d.m_vals.size _).size
        rw [arr_set_size, arr_add_size]
        omega
    | FREE =>
      obtain ⟨heF, hKF, hTF⟩ := hwf.free_ok t ht (bytes k level) hb htag
      have hstepF := allocF_free d0v f d t k level htag
      have hstate : (allocF d0v (f + 1) d t k level).1 =
          ⟨d.m_vals.set ((slotAt d t (bytes k level)).idx)
              ⟨(entAt d0v d ((slotAt d t (bytes k level)).idx)).k,
                (entAt d0v d ((slotAt d t (bytes k level)).idx)).v, 1⟩,
            d.m_tabs.set t
              ⟨updFn (tabAt d t).idx (bytes k level)
                ⟨Tag.VAL, (slotAt d t (bytes k level)).idx⟩, (tabAt d t).refs + 1⟩,
            d.m_size + 1⟩ := by rw [hstepF]
      have hlenT : t < d.m_tabs.buf.length := lt_of_lt_of_le ht hwf.tabs_size_le
      refine ⟨?_, ?_, ?_, ?_, ?_, ?_⟩
      · rw [hstepF, hm, allocF_free d0v m d t k level htag]
      · intro ti hti hne
        rw [hstate]
        exact tabAt_set_ne d _ _ _ _ _ hne
      · intro b2 hb2
        rw [hstate, tabAt_set_self d _ _ t _ hlenT]
        exact updFn_ne _ _ _ hb2
      · intro e2 he2
        rw [hstate]
        by_cases he : e2 = (slotAt d t (bytes k level)).idx
        · subst he
          rw [entAt_set_self d0v d _ _ _ _ (lt_of_lt_of_le heF hwf.vals_size_le)]
          exact ⟨rfl, rfl⟩
        · rw [entAt_set_ne d0v d _ _ _ _ _ he]
          exact ⟨rfl, rfl⟩
      · rw [hstate]
        show d.m_tabs.size ≤ (d.m_tabs.set t _).size
        rw [arr_set_size]
      · rw [hstate]
        show d.m_vals.size ≤ (d.m_vals.set _ _).size
        rw [arr_set_size]
    | VAL =>
      have hcmp2 : cmp K k ((entAt d0v d ((slotAt d t (bytes k level)).idx)).k) = false :=
        hcol htag
      have hslotEq : slotAt d t (bytes k level) =
          ⟨Tag.VAL, (slotAt d t (bytes k level)).idx⟩ := by
        have h1 : slotAt d t (bytes k level) =
            ⟨(slotAt d t (bytes k level)).tag, (slotAt d t (bytes k level)).idx⟩ := rfl
        rw [htag] at h1
        exact h1
      obtain ⟨heLT, hKo, hTko⟩ := hwf.val_ok t ht (bytes k level) hb htag
      have hkTake : k.take (level + 1) = pth t ++ [bytes k level] := by
        rw [hpt, ← take_extend hk.1 hlevK]
      have hkoTake : ((entAt d0v d ((slotAt d t (bytes k level)).idx)).k).take (level + 1) =
          k.take (level + 1) := by
        rw [hlev] at hTko
        rw [hTko]
        exact hkTake.symm
      have hlev1 : level + 1 < K := collision_level_lt hk hKo hkoTake hcmp2 hlevK
      have hstep := allocF_val_split d0v f d t k level htag
        hwf.tabs_size_le hwf.tabs_growth ht
      have hwf1 := split_WF K d0v d pth hwf k hk t level ((slotAt d t (bytes k level)).idx)
        ht hpt hlev hslotEq hcmp2
      rw [← hslotEq] at hwf1
      have hsz1 : (⟨d.m_vals,
          ((d.m_tabs.add table0).1.set d.m_tabs.size
              ⟨updFn (fun _ => nilSlot)
                  (bytes ((entAt d0v d ((slotAt d t (bytes k level)).idx)).k) (level + 1))
                  (slotAt d t (bytes k level)), 1⟩).set t
            ⟨updFn (tabAt d t).idx (bytes k level) ⟨Tag.TAB, d.m_tabs.size⟩,
              (tabAt d t).refs⟩,
          d.m_size⟩ : Dict ν).m_tabs.size = d.m_tabs.size + 1 := by
        show (((d.m_tabs.add table0).1.set _ _).set _ _).size = _
        rw [arr_set_size, arr_set_size, arr_add_size]
      have htabs1 := tabAt_add_set_set d d.m_vals d.m_size
        (⟨updFn (fun _ => nilSlot)
            (bytes ((entAt d0v d ((slotAt d t (bytes k level)).idx)).k) (level + 1))
            (slotAt d t (bytes k level)), 1⟩ : Table)
        (⟨updFn (tabAt d t).idx (bytes k level) ⟨Tag.TAB, d.m_tabs.size⟩,
          (tabAt d t).refs⟩ : Table)
        t hwf.tabs_size_le hwf.tabs_growth ht
      have htabNT := htabs1 d.m_tabs.size
      rw [if_neg (by omega), if_pos rfl] at htabNT
      have htabPT := htabs1 t
      rw [if_pos rfl] at htabPT
      have hslot1 : slotAt (⟨d.m_vals,
            ((d.m_tabs.add table0).1.set d.m_tabs.size
                ⟨updFn (fun _ => nilSlot)
                    (bytes ((entAt d0v d ((slotAt d t (bytes k level)).idx)).k) (level + 1))
                    (slotAt d t (bytes k level)), 1⟩).set t
              ⟨updFn (tabAt d t).idx (bytes k level) ⟨Tag.TAB, d.m_tabs.size⟩,
                (tabAt d t).refs⟩,
            d.m_size⟩ : Dict ν) d.m_tabs.size (bytes k (level + 1)) =
          updFn (fun _ => nilSlot)
            (bytes ((entAt d0v d ((slotAt d t (bytes k level)).idx)).k) (level + 1))
            (slotAt d t (bytes k level)) (bytes k (level + 1)) := by
        show (tabAt (⟨d.m_vals,
            ((d.m_tabs.add table0).1.set d.m_tabs.size
                ⟨updFn (fun _ => nilSlot)
                    (bytes ((entAt d0v d ((slotAt d t (bytes k level)).idx)).k) (level + 1))
                    (slotAt d t (bytes k level)), 1⟩).set t
              ⟨updFn (tabAt d t).idx (bytes k level) ⟨Tag.TAB, d.m_tabs.size⟩,
                (tabAt d t).refs⟩,
            d.m_size⟩ : Dict ν) d.m_tabs.size).idx (bytes k (level + 1)) = _
        rw [htabNT]
      have hpt1 : (fun x => if x = d.m_tabs.size then k.take (level + 1) else pth x)
          d.m_tabs.size = k.take (level + 1) := by
        show (if d.m_tabs.size = d.m_tabs.size then k.take (level + 1)
          else pth d.m_tabs.size) = _
        rw [if_pos rfl]
      have htakeLen : (k.take (level + 1)).length = level + 1 := by
        rw [List.length_take]
        have := hk.1
        exact Nat.min_eq_left (by omega)
      have hlev2 : ((fun x => if x = d.m_tabs.size then k.take (level + 1) else pth x)
          d.m_tabs.size).length = level + 1 := by
        rw [hpt1]
        exact htakeLen
      obtain ⟨ih1, ih2, ih3, ih4, ih5, ih6⟩ := ih
        (⟨d.m_vals,
          ((d.m_tabs.add table0).1.set d.m_tabs.size
              ⟨updFn (fun _ => nilSlot)
                  (bytes ((entAt d0v d ((slotAt d t (bytes k level)).idx)).k) (level + 1))
                  (slotAt d t (bytes k level)), 1⟩).set t
            ⟨updFn (tabAt d t).idx (bytes k level) ⟨Tag.TAB, d.m_tabs.size⟩,
              (tabAt d t).refs⟩,
          d.m_size⟩ : Dict ν)
        (fun x => if x = d.m_tabs.size then k.take (level + 1) else pth x)
        d.m_tabs.size (level + 1) hwf1 (by rw [hsz1]; omega) hpt1 hlev2
        (by
          rw [hslot1]
          by_cases hbb : bytes k (level + 1) =
              bytes ((entAt d0v d ((slotAt d t (bytes k level)).idx)).k) (level + 1)
          · rw [hbb, updFn_self, htag]
            decide
          · rw [updFn_ne _ _ _ hbb]
            decide)
        (by
          intro hV
          rw [hslot1] at hV ⊢
          by_cases hbb : bytes k (level + 1) =
              bytes ((entAt d0v d ((slotAt d t (bytes k level)).idx)).k) (level + 1)
          · rw [hbb, updFn_self]
            exact hcmp2
          · rw [updFn_ne _ _ _ hbb] at hV
            exact absurd hV (by decide))
        (by omega)
      have hstate : (allocF d0v (f + 1) d t k level).1 =
          (allocF d0v f
            (⟨d.m_vals,
              ((d.m_tabs.add table0).1.set d.m_tabs.size
                  ⟨updFn (fun _ => nilSlot)
                      (bytes ((entAt d0v d ((slotAt d t (bytes k level)).idx)).k) (level + 1))
                      (slotAt d t (bytes k level)), 1⟩).set t
                ⟨updFn (tabAt d t).idx (bytes k level) ⟨Tag.TAB, d.m_tabs.size⟩,
                  (tabAt d t).refs⟩,
              d.m_size⟩ : Dict ν)
            d.m_tabs.size k (level + 1)).1 := by rw [hstep]
      refine ⟨?_, ?_, ?_, ?_, ?_, ?_⟩
      · rw [hstep, ih1, hm,
          allocF_val_split d0v m d t k level htag hwf.tabs_size_le hwf.tabs_growth ht,
          show m = K - (level + 1) from by omega]
      · intro ti hti hne
        rw [hstate, ih2 ti (by rw [hsz1]; omega) (by omega)]
        have h := htabs1 ti
        rw [if_neg hne, if_neg (by omega)] at h
        exact h
      · intro b2 hb2
        rw [hstate, ih2 t (by rw [hsz1]; omega) (by omega), htabPT]
        exact updFn_ne _ _ _ hb2
      · intro e2 he2
        rw [hstate]
        exact ih4 e2 he2
      · rw [hstate]
        have h5 := ih5
        rw [hsz1] at h5
        omega
      · rw [hstate]
        exact ih6


/-! ### The main induction over `lookup_or_alloc` -/

theorem loa_main {ν : Type} (K : Nat) (d0v : ν) (k : List Nat) (hk : KeyWF K k) :
    ∀ (fuel : Nat) (d : Dict ν) (pth : Nat → List Nat) (t level : Nat),
    DictWF K d0v d pth → t < d.m_tabs.size →
    pth t = k.take level → (pth t).length = level →
    K - level ≤ fuel →
    lookup_or_allocF K d0v fuel d t k level =
      lookup_or_allocF K d0v (K - level) d t k level ∧
    (∃ th lv, th < d.m_tabs.size ∧ pth th = k.take lv ∧ (pth th).length = lv ∧
      level ≤ lv ∧
      (∀ ti, ti < d.m_tabs.size → ti ≠ th →
        tabAt (lookup_or_allocF K d0v fuel d t k level).1 ti = tabAt d ti) ∧
      (∀ b2, b2 ≠ bytes k lv →
        (tabAt (lookup_or_allocF K d0v fuel d t k level).1 th).idx b2 =
          (tabAt d th).idx b2)) ∧
    (∀ e2, e2 < d.m_vals.size →
      (entAt d0v (lookup_or_allocF K d0v fuel d t k level).1 e2).k = (entAt d0v d e2).k ∧
      (entAt d0v (lookup_or_allocF K d0v fuel d t k level).1 e2).v =
        (entAt d0v d e2).v) := by
  intro fuel
  induction fuel with
  | zero =>
    intro d pth t level hwf ht hpt hlev hfuel
    have hlevK : level < K := hlev ▸ hwf.pth_len t ht
    exact absurd hfuel (by omega)
  | succ f ih =>
    intro d pth t level hwf ht hpt hlev hfuel
    have hlevK : level < K := hlev ▸ hwf.pth_len t ht
    have hb : bytes k level < 256 := keyByte_lt hk hlevK
    obtain ⟨m, hm⟩ : ∃ m, K - level = m + 1 := ⟨K - level - 1, by omega⟩
    cases htag : (slotAt d t (bytes k level)).tag with
    | TAB =>
      obtain ⟨hc, hpc⟩ := hwf.tab_ok t ht (bytes k level) hb htag
      have hkTake : k.take (level + 1) = pth t ++ [bytes k level] := by
        rw [hpt, ← take_extend hk.1 hlevK]
      have hptc : pth ((slotAt d t (bytes k level)).idx) = k.take (level + 1) := by
        rw [hpc]
        exact hkTake.symm
      have htakeLen : (k.take (level + 1)).length = level + 1 := by
        rw [List.length_take]
        have := hk.1
        exact Nat.min_eq_left (by omega)
      have hlevc : (pth ((slotAt d t (bytes k level)).idx)).length = level + 1 := by
        rw [hptc]
        exact htakeLen
      have hstep := lookup_or_allocF_tab K d0v f d t k level htag
      obtain ⟨ihs, ⟨th, lv, hth, hpth, hlvth, hlevle, ihA, ihB⟩, ihC⟩ :=
        ih d pth ((slotAt d t (bytes k level)).idx) (level + 1) hwf hc hptc hlevc (by omega)
      refine ⟨?_, ⟨th, lv, hth, hpth, hlvth, by omega, ?_, ?_⟩, ?_⟩
      · rw [hstep, ihs, hm, lookup_or_allocF_tab K d0v m d t k level htag,
          show m = K - (level + 1) from by omega]
      · intro ti hti hne
        rw [hstep]
        exact ihA ti hti hne
      · intro b2 hb2
        rw [hstep]
        exact ihB b2 hb2
      · intro e2 he2
        rw [hstep]
        exact ihC e2 he2
    | VAL =>
      cases hcm : cmp K k ((entAt d0v d ((slotAt d t (bytes k level)).idx)).k) with
      | true =>
        have hstep := lookup_or_allocF_val_match K d0v f d t k level htag hcm
        refine ⟨?_, ⟨t, level, ht, hpt, hlev, Nat.le_refl _, ?_, ?_⟩, ?_⟩
        · rw [hstep, hm, lookup_or_allocF_val_match K d0v m d t k level htag hcm]
        · intro ti hti hne
          rw [hstep]
        · intro b2 hb2
          rw [hstep]
        · intro e2 he2
          rw [hstep]
          exact ⟨rfl, rfl⟩
      | false =>
        have hstep := lookup_or_allocF_val_nomatch K d0v f d t k level htag hcm
        obtain ⟨a1, a2, a3, a4, a5, a6⟩ := alloc_main K d0v k hk (f + 1) d pth t level
          hwf ht hpt hlev (by rw [htag]; decide) (fun _ => hcm) (by omega)
        refine ⟨?_, ⟨t, level, ht, hpt, hlev, Nat.le_refl _, ?_, ?_⟩, ?_⟩
        · rw [hstep, a1, hm, lookup_or_allocF_val_nomatch K d0v m d t k level htag hcm]
        · intro ti hti hne
          rw [hstep]
          exact a2 ti hti hne
        · intro b2 hb2
          rw [hstep]
          exact a3 b2 hb2
        · intro e2 he2
          rw [hstep]
          exact a4 e2 he2
    | NIL =>
      have hstep := lookup_or_allocF_nil K d0v f d t k level htag
      obtain ⟨a1, a2, a3, a4, a5, a6⟩ := alloc_main K d0v k hk (f + 1) d pth t level
        hwf ht hpt hlev (by rw [htag]; decide)
        (by intro hV; rw [htag] at hV; exact Tag.noConfusion hV) (by omega)
      refine ⟨?_, ⟨t, level, ht, hpt, hlev, Nat.le_refl _, ?_, ?_⟩, ?_⟩
      · rw [hstep, a1, hm, lookup_or_allocF_nil K d0v m d t k level htag]
      · intro ti hti hne
        rw [hstep]
        exact a2 ti hti hne
      · intro b2 hb2
        rw [hstep]
        exact a3 b2 hb2
      · intro e2 he2
        rw [hstep]
        exact a4 e2 he2
    | FREE =>
      have hstep := lookup_or_allocF_free K d0v f d t k level htag
      obtain ⟨a1, a2, a3, a4, a5, a6⟩ := alloc_main K d0v k hk (f + 1) d pth t level
        hwf ht hpt hlev (by rw [htag]; decide)
        (by intro hV; rw [htag] at hV; exact Tag.noConfusion hV) (by omega)
      refine ⟨?_, ⟨t, level, ht, hpt, hlev, Nat.le_refl _, ?_, ?_⟩, ?_⟩
      · rw [hstep, a1, hm, lookup_or_allocF_free K d0v m d t k level htag]
      · intro ti hti hne
        rw [hstep]
        exact a2 ti hti hne
      · intro b2 hb2
        rw [hstep]
        exact a3 b2 hb2
      · intro e2 he2
        rw [hstep]
        exact a4 e2 he2

/-! ### A generic frame lemma: lookups agree on untouched subtrees -/

theorem lookup_frame_gen {ν : Type} (K : Nat) (d0v : ν) (d d2 : Dict ν)
    (pth : Nat → List Nat) (hwf : DictWF K d0v d pth) (P : Nat → Prop)
    (hA : ∀ ti, ti < d.m_tabs.size → P ti → tabAt d2 ti = tabAt d ti)
    (hC : ∀ e2, e2 < d.m_vals.size →
      (entAt d0v d2 e2).k = (entAt d0v d e2).k ∧
      (entAt d0v d2 e2).v = (entAt d0v d e2).v)
    (hP : ∀ ti b2, ti < d.m_tabs.size → P ti → b2 < 256 →
      (slotAt d ti b2).tag = Tag.TAB → P ((slotAt d ti b2).idx))
    (k2 : List Nat) (hk2 : KeyWF K k2) :
    ∀ (f2 tj lev2 : Nat), tj < d.m_tabs.size → (pth tj).length = lev2 → P tj →
    lookupF K d0v d2 f2 tj k2 lev2 = lookupF K d0v d f2 tj k2 lev2 := by
  intro f2
  induction f2 with
  | zero =>
    intro tj lev2 _ _ _
    rfl
  | succ f ih =>
    intro tj lev2 htj hlev hPj
    have hlevK : lev2 < K := hlev ▸ hwf.pth_len tj htj
    have hb : bytes k2 lev2 < 256 := keyByte_lt hk2 hlevK
    have hslot : slotAt d2 tj (bytes k2 lev2) = slotAt d tj (bytes k2 lev2) := by
      show (tabAt d2 tj).idx _ = (tabAt d tj).idx _
      rw [hA tj htj hPj]
    cases htag : (slotAt d tj (bytes k2 lev2)).tag with
    | TAB =>
      have htag2 : (slotAt d2 tj (bytes k2 lev2)).tag = Tag.TAB := by rw [hslot, htag]
      rw [lookupF_tab K d0v d2 f tj k2 lev2 htag2, lookupF_tab K d0v d f tj k2 lev2 htag,
        hslot]
      obtain ⟨hc, hpc⟩ := hwf.tab_ok tj htj (bytes k2 lev2) hb htag
      exact ih _ (lev2 + 1) hc (by rw [hpc]; simp [hlev]) (hP tj _ htj hPj hb htag)
    | VAL =>
      have htag2 : (slotAt d2 tj (bytes k2 lev2)).tag = Tag.VAL := by rw [hslot, htag]
      rw [lookupF_val K d0v d2 f tj k2 lev2 htag2, lookupF_val K d0v d f tj k2 lev2 htag,
        hslot]
      obtain ⟨he, hKe, hTe⟩ := hwf.val_ok tj htj (bytes k2 lev2) hb htag
      obtain ⟨hkk, hvv⟩ := hC _ he
      rw [hkk, hvv]
    | NIL =>
      have htag2 : (slotAt d2 tj (bytes k2 lev2)).tag = Tag.NIL := by rw [hslot, htag]
      rw [lookupF_nil K d0v d2 f tj k2 lev2 htag2, lookupF_nil K d0v d f tj k2 lev2 htag]
    | FREE =>
      have htag2 : (slotAt d2 tj (bytes k2 lev2)).tag = Tag.FREE := by rw [hslot, htag]
      rw [lookupF_free K d0v d2 f tj k2 lev2 htag2, lookupF_free K d0v d f tj k2 lev2 htag]

/-! ### `alloc` preserves the bindings of every other present key -/

theorem alloc_lookup_frame {ν : Type} (K : Nat) (d0v : ν) (k : List Nat) (hk : KeyWF K k) :
    ∀ (fuel : Nat) (d : Dict ν) (pth : Nat → List Nat) (t level : Nat),
    DictWF K d0v d pth → t < d.m_tabs.size →
    pth t = k.take level → (pth t).length = level →
    (slotAt d t (bytes k level)).tag ≠ Tag.TAB →
    ((slotAt d t (bytes k level)).tag = Tag.VAL →
      cmp K k ((entAt d0v d ((slotAt d t (bytes k level)).idx)).k) = false) →
    K - level ≤ fuel →
    ∀ (k2 : List Nat) (v2 : ν) (f2 : Nat), KeyWF K k2 → cmp K k2 k = false →
    K - level ≤ f2 →
    lookupF K d0v d f2 t k2 level = some v2 →
    lookupF K d0v (allocF d0v fuel d t k level).1 f2 t k2 level = some v2 := by
  intro fuel
  induction fuel with
  | zero =>
    intro d pth t level hwf ht hpt hlev hntag hcol hfuel
    have hlevK : level < K := hlev ▸ hwf.pth_len t ht
    exact absurd hfuel (by omega)
  | succ f ih =>
    intro d pth t level hwf ht hpt hlev hntag hcol hfuel k2 v2 f2 hk2 hcmpk hf2 hlk
    have hlevK : level < K := hlev ▸ hwf.pth_len t ht
    have hb : bytes k level < 256 := keyByte_lt hk hlevK
    have hb2 : bytes k2 level < 256 := keyByte_lt hk2 hlevK
    obtain ⟨a1, a2, a3, a4, a5, a6⟩ := alloc_main K d0v k hk (f + 1) d pth t level
      hwf ht hpt hlev hntag hcol hfuel
    obtain ⟨g, hg2⟩ : ∃ g, f2 = g + 1 := ⟨f2 - 1, by omega⟩
    subst hg2
    by_cases hbb : bytes k2 level = bytes k level
    · cases htag : (slotAt d t (bytes k level)).tag with
      | TAB => exact absurd htag hntag
      | NIL =>
        rw [lookupF_nil K d0v d g t k2 level (by rw [hbb]; exact htag)] at hlk
        exact Option.noConfusion hlk
      | FREE =>
        rw [lookupF_free K d0v d g t k2 level (by rw [hbb]; exact htag)] at hlk
        exact Option.noConfusion hlk
      | VAL =>
        rw [lookupF_val K d0v d g t k2 level (by rw [hbb]; exact htag), hbb] at hlk
        cases hcm2 : cmp K k2 ((entAt d0v d ((slotAt d t (bytes k level)).idx)).k) with
        | false =>
          rw [hcm2] at hlk
          simp at hlk
        | true =>
          rw [hcm2] at hlk
          simp at hlk
          have hcmp2 : cmp K k ((entAt d0v d ((slotAt d t (bytes k level)).idx)).k) = false :=
            hcol htag
          have hslotEq : slotAt d t (bytes k level) =
              ⟨Tag.VAL, (slotAt d t (bytes k level)).idx⟩ := by
            have h1 : slotAt d t (bytes k level) =
                ⟨(slotAt d t (bytes k level)).tag, (slotAt d t (bytes k level)).idx⟩ := rfl
            rw [htag] at h1
            exact h1
          obtain ⟨heLT, hKo, hTko⟩ := hwf.val_ok t ht (bytes k level) hb htag
          have hk2eq : k2 = (entAt d0v d ((slotAt d t (bytes k level)).idx)).k :=
            (cmp_eq_true_iff hk2 hKo).mp hcm2
          subst hk2eq
          have hkTake : k.take (level + 1) = pth t ++ [bytes k level] := by
            rw [hpt, ← take_extend hk.1 hlevK]
          have hkoTake :
              ((entAt d0v d ((slotAt d t (bytes k level)).idx)).k).take (level + 1) =
              k.take (level + 1) := by
            rw [hlev] at hTko
            rw [hTko]
            exact hkTake.symm
          have hlev1 : level + 1 < K := collision_level_lt hk hKo hkoTake hcmp2 hlevK
          have hstep := allocF_val_split d0v f d t k level htag
            hwf.tabs_size_le hwf.tabs_growth ht
          have hwf1 := split_WF K d0v d pth hwf k hk t level
            ((slotAt d t (bytes k level)).idx) ht hpt hlev hslotEq hcmp2
          rw [← hslotEq] at hwf1
          have hsz1 : (⟨d.m_vals,
          ((d.m_tabs.add table0).1.set d.m_tabs.size
              ⟨updFn (fun _ => nilSlot)
                  (bytes ((entAt d0v d ((slotAt d t (bytes k level)).idx)).k) (level + 1))
                  (slotAt d t (bytes k level)), 1⟩).set t
            ⟨updFn (tabAt d t).idx (bytes k level) ⟨Tag.TAB, d.m_tabs.size⟩,
              (tabAt d t).refs⟩,
          d.m_size⟩ : Dict ν).m_tabs.size = d.m_tabs.size + 1 := by
            show (((d.m_tabs.add table0).1.set _ _).set _ _).size = _
            rw [arr_set_size, arr_set_size, arr_add_size]
          have htabs1 := tabAt_add_set_set d d.m_vals d.m_size
            (⟨updFn (fun _ => nilSlot)
                (bytes ((entAt d0v d ((slotAt d t (bytes k level)).idx)).k) (level + 1))
                (slotAt d t (bytes k level)), 1⟩ : Table)
            (⟨updFn (tabAt d t).idx (bytes k level) ⟨Tag.TAB, d.m_tabs.size⟩,
              (tabAt d t).refs⟩ : Table)
            t hwf.tabs_size_le hwf.tabs_growth ht
          have htabNT := htabs1 d.m_tabs.size
          rw [if_neg (by omega), if_pos rfl] at htabNT
          have htabPT := htabs1 t
          rw [if_pos rfl] at htabPT
          have hslot1 : slotAt (⟨d.m_vals,
          ((d.m_tabs.add table0).1.set d.m_tabs.size
              ⟨updFn (fun _ => nilSlot)
                  (bytes ((entAt d0v d ((slotAt d t (bytes k level)).idx)).k) (level + 1))
                  (slotAt d t (bytes k level)), 1⟩).set t
            ⟨updFn (tabAt d t).idx (bytes k level) ⟨Tag.TAB, d.m_tabs.size⟩,
              (tabAt d t).refs⟩,
          d.m_size⟩ : Dict ν) d.m_tabs.size (bytes k (level + 1)) =
              updFn (fun _ => nilSlot)
                (bytes ((entAt d0v d ((slotAt d t (bytes k level)).idx)).k) (level + 1))
                (slotAt d t (bytes k level)) (bytes k (level + 1)) := by
            show (tabAt (⟨d.m_vals,
          ((d.m_tabs.add table0).1.set d.m_tabs.size
              ⟨updFn (fun _ => nilSlot)
                  (bytes ((entAt d0v d ((slotAt d t (bytes k level)).idx)).k) (level + 1))
                  (slotAt d t (bytes k level)), 1⟩).set t
            ⟨updFn (tabAt d t).idx (bytes k level) ⟨Tag.TAB, d.m_tabs.size⟩,
              (tabAt d t).refs⟩,
          d.m_size⟩ : Dict ν) d.m_tabs.size).idx (bytes k (level + 1)) = _
            rw [htabNT]
          have hpt1 : (fun x => if x = d.m_tabs.size then k.take (level + 1) else pth x)
              d.m_tabs.size = k.take (level + 1) := by
            show (if d.m_tabs.size = d.m_tabs.size then k.take (level + 1)
              else pth d.m_tabs.size) = _
            rw [if_pos rfl]
          have htakeLen : (k.take (level + 1)).length = level + 1 := by
            rw [List.length_take]
            have := hk.1
            exact Nat.min_eq_left (by omega)
          have hlev2 : ((fun x => if x = d.m_tabs.size then k.take (level + 1) else pth x)
              d.m_tabs.size).length = level + 1 := by
            rw [hpt1]
            exact htakeLen
          obtain ⟨c1, c2, c3, c4, c5, c6⟩ := alloc_main K d0v k hk f (⟨d.m_vals,
          ((d.m_tabs.add table0).1.set d.m_tabs.size
              ⟨updFn (fun _ => nilSlot)
                  (bytes ((entAt d0v d ((slotAt d t (bytes k level)).idx)).k) (level + 1))
                  (slotAt d t (bytes k level)), 1⟩).set t
            ⟨updFn (tabAt d t).idx (bytes k level) ⟨Tag.TAB, d.m_tabs.size⟩,
              (tabAt d t).refs⟩,
          d.m_size⟩ : Dict ν)
            (fun x => if x = d.m_tabs.size then k.take (level + 1) else pth x)
            d.m_tabs.size (level + 1) hwf1 (by rw [hsz1]; omega) hpt1 hlev2
            (by
              rw [hslot1]
              by_cases hq : bytes k (level + 1) =
                  bytes ((entAt d0v d ((slotAt d t (bytes k level)).idx)).k) (level + 1)
              · rw [hq, updFn_self, htag]
                decide
              · rw [updFn_ne _ _ _ hq]
                decide)
            (by
              intro hV
              rw [hslot1] at hV ⊢
              by_cases hq : bytes k (level + 1) =
                  bytes ((entAt d0v d ((slotAt d t (bytes k level)).idx)).k) (level + 1)
              · rw [hq, updFn_self]
                exact hcmp2
              · rw [updFn_ne _ _ _ hq] at hV
                exact absurd hV (by decide))
            (by omega)
          have hslotT : slotAt (allocF d0v f (⟨d.m_vals,
          ((d.m_tabs.add table0).1.set d.m_tabs.size
              ⟨updFn (fun _ => nilSlot)
                  (bytes ((entAt d0v d ((slotAt d t (bytes k level)).idx)).k) (level + 1))
                  (slotAt d t (bytes k level)), 1⟩).set t
            ⟨updFn (tabAt d t).idx (bytes k level) ⟨Tag.TAB, d.m_tabs.size⟩,
              (tabAt d t).refs⟩,
          d.m_size⟩ : Dict ν) d.m_tabs.size k (level + 1)).1 t
              (bytes ((entAt d0v d ((slotAt d t (bytes k level)).idx)).k) level) =
              ⟨Tag.TAB, d.m_tabs.size⟩ := by
            show (tabAt (allocF d0v f (⟨d.m_vals,
          ((d.m_tabs.add table0).1.set d.m_tabs.size
              ⟨updFn (fun _ => nilSlot)
                  (bytes ((entAt d0v d ((slotAt d t (bytes k level)).idx)).k) (level + 1))
                  (slotAt d t (bytes k level)), 1⟩).set t
            ⟨updFn (tabAt d t).idx (bytes k level) ⟨Tag.TAB, d.m_tabs.size⟩,
              (tabAt d t).refs⟩,
          d.m_size⟩ : Dict ν) d.m_tabs.size k (level + 1)).1 t).idx _ = _
            rw [c2 t (by rw [hsz1]; omega) (by omega), htabPT, hbb]
            exact updFn_self _ _ _
          rw [hstep, lookupF_tab K d0v _ g t _ level (by rw [hslotT]), hslotT]
          obtain ⟨g2, hg3⟩ : ∃ g2, g = g2 + 1 := ⟨g - 1, by omega⟩
          have hsl : slotAt (⟨d.m_vals,
          ((d.m_tabs.add table0).1.set d.m_tabs.size
              ⟨updFn (fun _ => nilSlot)
                  (bytes ((entAt d0v d ((slotAt d t (bytes k level)).idx)).k) (level + 1))
                  (slotAt d t (bytes k level)), 1⟩).set t
            ⟨updFn (tabAt d t).idx (bytes k level) ⟨Tag.TAB, d.m_tabs.size⟩,
              (tabAt d t).refs⟩,
          d.m_size⟩ : Dict ν) d.m_tabs.size
              (bytes ((entAt d0v d ((slotAt d t (bytes k level)).idx)).k) (level + 1)) =
              slotAt d t (bytes k level) := by
            show (tabAt (⟨d.m_vals,
          ((d.m_tabs.add table0).1.set d.m_tabs.size
              ⟨updFn (fun _ => nilSlot)
                  (bytes ((entAt d0v d ((slotAt d t (bytes k level)).idx)).k) (level + 1))
                  (slotAt d t (bytes k level)), 1⟩).set t
            ⟨updFn (tabAt d t).idx (bytes k level) ⟨Tag.TAB, d.m_tabs.size⟩,
              (tabAt d t).refs⟩,
          d.m_size⟩ : Dict ν) d.m_tabs.size).idx _ = _
            rw [htabNT]
            show updFn (fun _ => nilSlot)
                (bytes ((entAt d0v d ((slotAt d t (bytes k level)).idx)).k) (level + 1))
                (slotAt d t (bytes k level))
                (bytes ((entAt d0v d ((slotAt d t (bytes k level)).idx)).k) (level + 1)) =
              slotAt d t (bytes k level)
            exact updFn_self _ _ _
          have hprem : lookupF K d0v (⟨d.m_vals,
          ((d.m_tabs.add table0).1.set d.m_tabs.size
              ⟨updFn (fun _ => nilSlot)
                  (bytes ((entAt d0v d ((slotAt d t (bytes k level)).idx)).k) (level + 1))
                  (slotAt d t (bytes k level)), 1⟩).set t
            ⟨updFn (tabAt d t).idx (bytes k level) ⟨Tag.TAB, d.m_tabs.size⟩,
              (tabAt d t).refs⟩,
          d.m_size⟩ : Dict ν) g d.m_tabs.size
              ((entAt d0v d ((slotAt d t (bytes k level)).idx)).k) (level + 1) = some v2 := by
            subst hg3
            rw [lookupF_val K d0v (⟨d.m_vals,
          ((d.m_tabs.add table0).1.set d.m_tabs.size
              ⟨updFn (fun _ => nilSlot)
                  (bytes ((entAt d0v d ((slotAt d t (bytes k level)).idx)).k) (level + 1))
                  (slotAt d t (bytes k level)), 1⟩).set t
            ⟨updFn (tabAt d t).idx (bytes k level) ⟨Tag.TAB, d.m_tabs.size⟩,
              (tabAt d t).refs⟩,
          d.m_size⟩ : Dict ν) g2 d.m_tabs.size _ (level + 1)
              (by rw [hsl]; exact htag), hsl]
            show (if cmp K ((entAt d0v d ((slotAt d t (bytes k level)).idx)).k)
                ((entAt d0v d ((slotAt d t (bytes k level)).idx)).k) = true
              then some ((entAt d0v d ((slotAt d t (bytes k level)).idx)).v)
              else none) = some v2
            rw [cmp_refl, if_pos rfl, hlk]
          exact ih (⟨d.m_vals,
          ((d.m_tabs.add table0).1.set d.m_tabs.size
              ⟨updFn (fun _ => nilSlot)
                  (bytes ((entAt d0v d ((slotAt d t (bytes k level)).idx)).k) (level + 1))
                  (slotAt d t (bytes k level)), 1⟩).set t
            ⟨updFn (tabAt d t).idx (bytes k level) ⟨Tag.TAB, d.m_tabs.size⟩,
              (tabAt d t).refs⟩,
          d.m_size⟩ : Dict ν)
            (fun x => if x = d.m_tabs.size then k.take (level + 1) else pth x)
            d.m_tabs.size (level + 1) hwf1 (by rw [hsz1]; omega) hpt1 hlev2
            (by
              rw [hslot1]
              by_cases hq : bytes k (level + 1) =
                  bytes ((entAt d0v d ((slotAt d t (bytes k level)).idx)).k) (level + 1)
              · rw [hq, updFn_self, htag]
                decide
              · rw [updFn_ne _ _ _ hq]
                decide)
            (by
              intro hV
              rw [hslot1] at hV ⊢
              by_cases hq : bytes k (level + 1) =
                  bytes ((entAt d0v d ((slotAt d t (bytes k level)).idx)).k) (level + 1)
              · rw [hq, updFn_self]
                exact hcmp2
              · rw [updFn_ne _ _ _ hq] at hV
                exact absurd hV (by decide))
            (by omega) _ v2 g hKo hcmpk (by omega) hprem
    · have hslot2 : slotAt (allocF d0v (f + 1) d t k level).1 t (bytes k2 level) =
          slotAt d t (bytes k2 level) := by
        show (tabAt (allocF d0v (f + 1) d t k level).1 t).idx _ = _
        exact a3 _ hbb
      cases htg2 : (slotAt d t (bytes k2 level)).tag with
      | NIL =>
        rw [lookupF_nil K d0v d g t k2 level htg2] at hlk
        exact Option.noConfusion hlk
      | FREE =>
        rw [lookupF_free K d0v d g t k2 level htg2] at hlk
        exact Option.noConfusion hlk
      | VAL =>
        rw [lookupF_val K d0v d g t k2 level htg2] at hlk
        rw [lookupF_val K d0v _ g t k2 level (by rw [hslot2]; exact htg2), hslot2]
        obtain ⟨he, hKe, hTe⟩ := hwf.val_ok t ht (bytes k2 level) hb2 htg2
        obtain ⟨hkk, hvv⟩ := a4 _ he
        rw [hkk, hvv]
        exact hlk
      | TAB =>
        rw [lookupF_tab K d0v d g t k2 level htg2] at hlk
        rw [lookupF_tab K d0v _ g t k2 level (by rw [hslot2]; exact htg2), hslot2]
        obtain ⟨hc, hpc⟩ := hwf.tab_ok t ht (bytes k2 level) hb2 htg2
        rw [lookup_frame_gen K d0v d (allocF d0v (f + 1) d t k level).1 pth hwf
          (fun ti => level < (pth ti).length)
          (fun ti hti hgt => a2 ti hti (fun he => by rw [he, hlev] at hgt; omega))
          a4
          (fun ti b3 hti hgt hb3 htb => by
            obtain ⟨hc3, hpc3⟩ := hwf.tab_ok ti hti b3 hb3 htb
            rw [hpc3]
            simp
            omega)
          k2 hk2 g _ (level + 1) hc (by rw [hpc]; simp [hlev])
          (by
            show level < (pth ((slotAt d t (bytes k2 level)).idx)).length
            rw [hpc]
            simp [hlev])]
        exact hlk


/-! ### `lookup_or_alloc` preserves the bindings of every other present key -/

theorem loa_lookup_frame {ν : Type} (K : Nat) (d0v : ν) (k : List Nat) (hk : KeyWF K k) :
    ∀ (fuel : Nat) (d : Dict ν) (pth : Nat → List Nat) (t level : Nat),
    DictWF K d0v d pth → t < d.m_tabs.size →
    pth t = k.take level → (pth t).length = level →
    K - level ≤ fuel →
    ∀ (k2 : List Nat) (v2 : ν) (f2 : Nat), KeyWF K k2 → cmp K k2 k = false →
    K - level ≤ f2 →
    lookupF K d0v d f2 t k2 level = some v2 →
    lookupF K d0v (lookup_or_allocF K d0v fuel d t k level).1 f2 t k2 level = some v2 := by
  intro fuel
  induction fuel with
  | zero =>
    intro d pth t level hwf ht hpt hlev hfuel
    have hlevK : level < K := hlev ▸ hwf.pth_len t ht
    exact absurd hfuel (by omega)
  | succ f ih =>
    intro d pth t level hwf ht hpt hlev hfuel k2 v2 f2 hk2 hcmpk hf2 hlk
    have hlevK : level < K := hlev ▸ hwf.pth_len t ht
    have hb : bytes k level < 256 := keyByte_lt hk hlevK
    have hb2 : bytes k2 level < 256 := keyByte_lt hk2 hlevK
    cases htag : (slotAt d t (bytes k level)).tag with
    | VAL =>
      cases hcm : cmp K k ((entAt d0v d ((slotAt d t (bytes k level)).idx)).k) with
      | true =>
        rw [lookup_or_allocF_val_match K d0v f d t k level htag hcm]
        exact hlk
      | false =>
        rw [lookup_or_allocF_val_nomatch K d0v f d t k level htag hcm]
        exact alloc_lookup_frame K d0v k hk (f + 1) d pth t level hwf ht hpt hlev
          (by rw [htag]; decide) (fun _ => hcm) hfuel k2 v2 f2 hk2 hcmpk hf2 hlk
    | NIL =>
      rw [lookup_or_allocF_nil K d0v f d t k level htag]
      exact alloc_lookup_frame K d0v k hk (f + 1) d pth t level hwf ht hpt hlev
        (by rw [htag]; decide)
        (by intro hV; rw [htag] at hV; exact Tag.noConfusion hV)
        hfuel k2 v2 f2 hk2 hcmpk hf2 hlk
    | FREE =>
      rw [lookup_or_allocF_free K d0v f d t k level htag]
      exact alloc_lookup_frame K d0v k hk (f + 1) d pth t level hwf ht hpt hlev
        (by rw [htag]; decide)
        (by intro hV; rw [htag] at hV; exact Tag.noConfusion hV)
        hfuel k2 v2 f2 hk2 hcmpk hf2 hlk
    | TAB =>
      obtain ⟨hc, hpc⟩ := hwf.tab_ok t ht (bytes k level) hb htag
      have hkTake : k.take (level + 1) = pth t ++ [bytes k level] := by
        rw [hpt, ← take_extend hk.1 hlevK]
      have hptc : pth ((slotAt d t (bytes k level)).idx) = k.take (level + 1) := by
        rw [hpc]
        exact hkTake.symm
      have htakeLen : (k.take (level + 1)).length = level + 1 := by
        rw [List.length_take]
        have := hk.1
        exact Nat.min_eq_left (by omega)
      have hlevc : (pth ((slotAt d t (bytes k level)).idx)).length = level + 1 := by
        rw [hptc]
        exact htakeLen
      obtain ⟨l1, ⟨th, lv, hth, hpth, hlvth, hlevle, lA, lB⟩, lC⟩ :=
        loa_main K d0v k hk f d pth ((slotAt d t (bytes k level)).idx) (level + 1)
          hwf hc hptc hlevc (by omega)
      rw [lookup_or_allocF_tab K d0v f d t k level htag]
      obtain ⟨g, hg2⟩ : ∃ g, f2 = g + 1 := ⟨f2 - 1, by omega⟩
      subst hg2
      have hne : t ≠ th := by
        intro he
        rw [← he, hlev] at hlvth
        omega
      have htabT : tabAt (lookup_or_allocF K d0v f d
          ((slotAt d t (bytes k level)).idx) k (level + 1)).1 t = tabAt d t :=
        lA t ht hne
      have hslT : ∀ b3, slotAt (lookup_or_allocF K d0v f d
          ((slotAt d t (bytes k level)).idx) k (level + 1)).1 t b3 =
          slotAt d t b3 := by
        intro b3
        show (tabAt (lookup_or_allocF K d0v f d
          ((slotAt d t (bytes k level)).idx) k (level + 1)).1 t).idx b3 = _
        rw [htabT]
        rfl
      by_cases hbb : bytes k2 level = bytes k level
      · rw [lookupF_tab K d0v d g t k2 level (by rw [hbb]; exact htag), hbb] at hlk
        rw [lookupF_tab K d0v _ g t k2 level (by rw [hslT, hbb]; exact htag), hslT, hbb]
        exact ih d pth ((slotAt d t (bytes k level)).idx) (level + 1) hwf hc hptc hlevc
          (by omega) k2 v2 g hk2 hcmpk (by omega) hlk
      · cases htg2 : (slotAt d t (bytes k2 level)).tag with
        | NIL =>
          rw [lookupF_nil K d0v d g t k2 level htg2] at hlk
          exact Option.noConfusion hlk
        | FREE =>
          rw [lookupF_free K d0v d g t k2 level htg2] at hlk
          exact Option.noConfusion hlk
        | VAL =>
          rw [lookupF_val K d0v d g t k2 level htg2] at hlk
          rw [lookupF_val K d0v _ g t k2 level (by rw [hslT]; exact htg2), hslT]
          obtain ⟨he, hKe, hTe⟩ := hwf.val_ok t ht (bytes k2 level) hb2 htg2
          obtain ⟨hkk, hvv⟩ := lC _ he
          rw [hkk, hvv]
          exact hlk
        | TAB =>
          rw [lookupF_tab K d0v d g t k2 level htg2] at hlk
          rw [lookupF_tab K d0v _ g t k2 level (by rw [hslT]; exact htg2), hslT]
          obtain ⟨hc2, hpc2⟩ := hwf.tab_ok t ht (bytes k2 level) hb2 htg2
          rw [lookup_frame_gen K d0v d
            (lookup_or_allocF K d0v f d ((slotAt d t (bytes k level)).idx) k (level + 1)).1
            pth hwf
            (fun ti => level < (pth ti).length ∧ (pth ti).getD level 0 = bytes k2 level)
            (fun ti hti hPti => lA ti hti (fun he2 => hbb (by
              have h1 := hPti.2
              rw [he2, hpth] at h1
              rw [getD_take k lv level 0 (by omega)] at h1
              exact h1.symm)))
            lC
            (fun ti b3 hti hPti hb3 htb => by
              obtain ⟨hc3, hpc3⟩ := hwf.tab_ok ti hti b3 hb3 htb
              show level < (pth ((slotAt d ti b3).idx)).length ∧
                (pth ((slotAt d ti b3).idx)).getD level 0 = bytes k2 level
              rw [hpc3]
              refine ⟨?_, ?_⟩
              · have := hPti.1
                simp
                omega
              · rw [List.getD_append _ _ _ _ hPti.1]
                exact hPti.2)
            k2 hk2 g _ (level + 1) hc2 (by rw [hpc2]; simp [hlev])
            (by
              show level < (pth ((slotAt d t (bytes k2 level)).idx)).length ∧
                (pth ((slotAt d t (bytes k2 level)).idx)).getD level 0 = bytes k2 level
              rw [hpc2]
              refine ⟨?_, ?_⟩
              · simp [hlev]
              · rw [List.getD_append_right _ _ _ _ (by omega)]
                simp [hlev])]
          exact hlk


/-! ### Copy construction and assignment of the pools -/

theorem arr_resize_of_le {α : Type} (a : Arr α) (d0 : α) (n : Nat)
    (h : n ≤ a.buf.length) :
    a.resize d0 n = ⟨a.buf, n, a.growth⟩ := by
  unfold Arr.resize
  rw [if_neg (by omega)]

theorem copyLoop_size {α : Type} (dst src : Arr α) (d0 : α) :
    ∀ n, (Arr.copyLoop dst src d0 n).size = dst.size := by
  intro n
  induction n with
  | zero => rfl
  | succ m ih =>
    show ((Arr.copyLoop dst src d0 m).set m (src.get d0 m)).size = dst.size
    rw [arr_set_size, ih]

theorem copyLoop_len {α : Type} (dst src : Arr α) (d0 : α) :
    ∀ n, (Arr.copyLoop dst src d0 n).buf.length = dst.buf.length := by
  intro n
  induction n with
  | zero => rfl
  | succ m ih =>
    show ((Arr.copyLoop dst src d0 m).set m (src.get d0 m)).buf.length = dst.buf.length
    rw [arr_set_len, ih]

theorem copyLoop_get {α : Type} (dst src : Arr α) (d0 : α) :
    ∀ n, n ≤ dst.buf.length → ∀ i, i < n →
    (Arr.copyLoop dst src d0 n).get d0 i = src.get d0 i := by
  intro n
  induction n with
  | zero =>
    intro _ i hi
    exact absurd hi (by omega)
  | succ m ih =>
    intro hn i hi
    show ((Arr.copyLoop dst src d0 m).set m (src.get d0 m)).get d0 i = src.get d0 i
    by_cases him : i = m
    · subst him
      rw [arr_get_set_self _ _ _ _ (by rw [copyLoop_len]; omega)]
    · rw [arr_get_set_ne _ _ _ _ _ him]
      exact ih (by omega) i (by omega)

theorem arr_copy_props {α : Type} (a : Arr α) (d0 : α) (h : a.size ≤ a.buf.length) :
    (a.copy d0).size = a.size ∧ (a.copy d0).buf.length = a.buf.length ∧
    (∀ i, i < a.size → (a.copy d0).get d0 i = a.get d0 i) := by
  have hRPl : ((Arr.new 1 : Arr α).resize_pool d0 a.buf.length).buf.length =
      a.buf.length := by
    rw [arr_resize_pool_len _ _ _ (Nat.le_refl 0)]
    exact Nat.max_eq_right (Nat.zero_le _)
  have hB := arr_resize_of_le ((Arr.new 1 : Arr α).resize_pool d0 a.buf.length) d0 a.size
    (by rw [hRPl]; exact h)
  refine ⟨?_, ?_, ?_⟩
  · show (Arr.copyLoop _ a d0 a.size).size = a.size
    rw [copyLoop_size, hB]
  · show (Arr.copyLoop _ a d0 a.size).buf.length = a.buf.length
    rw [copyLoop_len, hB]
    exact hRPl
  · intro i hi
    show (Arr.copyLoop _ a d0 a.size).get d0 i = a.get d0 i
    exact copyLoop_get _ a d0 a.size
      (by rw [hB]
          show a.size ≤ ((Arr.new 1 : Arr α).resize_pool d0 a.buf.length).buf.length
          rw [hRPl]
          exact h) i hi

theorem arr_assign_props {α : Type} (dst src : Arr α) (d0 : α)
    (hd : dst.size ≤ dst.buf.length) (hs : src.size ≤ src.buf.length) :
    (dst.assign src d0).size = src.size ∧
    (∀ i, i < src.size → (dst.assign src d0).get d0 i = src.get d0 i) := by
  have hRPl : (dst.resize_pool d0 src.buf.length).buf.length =
      Nat.max dst.buf.length src.buf.length :=
    arr_resize_pool_len _ _ _ hd
  have hB := arr_resize_of_le (dst.resize_pool d0 src.buf.length) d0 src.size
    (by rw [hRPl]; exact le_trans hs (Nat.le_max_right _ _))
  refine ⟨?_, ?_⟩
  · show (Arr.copyLoop _ src d0 src.size).size = src.size
    rw [copyLoop_size, hB]
  · intro i hi
    show (Arr.copyLoop _ src d0 src.size).get d0 i = src.get d0 i
    exact copyLoop_get _ src d0 src.size
      (by rw [hB]; show src.size ≤ (dst.resize_pool d0 src.buf.length).buf.length;
          rw [hRPl]; exact le_trans hs (Nat.le_max_right _ _)) i hi


/-! ### Claim theorems -/

/-- C1: the claimed insert-then-lookup round trip fails on the FREE-reuse
path of `alloc`: starting from `ex2c` (where `[0,0]` was inserted with
value 7 and then removed, leaving a FREE slot on the shared byte path),
`insert([0,1])` reuses the freed entry without writing the new key, so
after assigning 42 through the returned reference (`ex2e`), `lookup([0,1])`
reports absent while the removed key `[0,0]` resurfaces bound to 42. -/
theorem C1_thm :
    ex2e = dict_assign_val 0 (dict_insert 2 0 ex2c [0, 1]).1
      (dict_insert 2 0 ex2c [0, 1]).2 42 ∧
    dict_lookup 2 0 ex2e [0, 1] = none ∧
    dict_lookup 2 0 ex2e [0, 0] = some 42 :=
  ⟨rfl, by decide, by decide⟩

/-- C2: the node-refs invariant (I2) is violated right after a collision
split: in `exSplit` (insert `[0,0]` then `[0,1]` with 2-byte keys) the
root's `refs` is still 1 although the split converted its only VAL slot
into a TAB slot, so the root has 0 slots tagged VAL. -/
theorem C2_thm :
    (tabAt exSplit 0).refs = 1 ∧ tabValCount (tabAt exSplit 0) = 0 :=
  ⟨by decide, by decide⟩

/-- C3 (counterexample): the constructor passes 256 as the entry pool's
growth step, not its capacity — the freshly constructed entry pool has
pool size 0, not 256. -/
theorem C3_cex :
    ¬ (dictNew : Dict Nat).m_vals.pool_size = 256 ∧
    (dictNew : Dict Nat).m_vals.pool_size = 0 :=
  ⟨by decide, by decide⟩

/-- C3 (amended): construction yields an empty container — `size = 0`,
`node_count = 1`, lookup of any key absent and `prof_lookup = 1` — with
the entry pool EMPTY (capacity 0, growth step 256) and the node pool at
capacity 16 (growth step 16) holding the initialized root. -/
theorem C3_thm {ν : Type} (K : Nat) (d0v : ν) (hK : 0 < K) (k : List Nat) :
    dict_size (dictNew : Dict ν) = 0 ∧
    table_count (dictNew : Dict ν) = 1 ∧
    (dictNew : Dict ν).m_vals.pool_size = 0 ∧
    (dictNew : Dict ν).m_vals.growth = 256 ∧
    (dictNew : Dict ν).m_tabs.pool_size = 16 ∧
    (dictNew : Dict ν).m_tabs.growth = 16 ∧
    dict_lookup K d0v (dictNew : Dict ν) k = none ∧
    dict_prof_lookup K (dictNew : Dict ν) k = 1 := by
  obtain ⟨m, hKm⟩ : ∃ m, K = m + 1 := ⟨K - 1, by omega⟩
  subst hKm
  have hs : (slotAt (dictNew : Dict ν) 0 (bytes k 0)).tag = Tag.NIL := by
    rw [dictNew_slot]
    rfl
  refine ⟨rfl, rfl, rfl, rfl, rfl, rfl, ?_, ?_⟩
  · exact lookupF_nil (m + 1) d0v (dictNew : Dict ν) m 0 k 0 hs
  · exact prof_lookupF_notab (dictNew : Dict ν) m 0 k 0 (by rw [hs]; decide)

/-- C3 (witness): the amended statement at `K = 1`, `k = [0]`. -/
theorem C3_wit :
    dict_lookup 1 (0 : Nat) dictNew [0] = none ∧
    dict_prof_lookup 1 (dictNew : Dict Nat) [0] = 1 := by
  obtain ⟨h1, h2, h3, h4, h5, h6, h7, h8⟩ := C3_thm 1 (0 : Nat) (by decide) [0]
  exact ⟨h7, h8⟩

/-- C4 (counterexample): after insert `[0,0]` / assign 7 / remove /
reinsert `[0,0]`, the value observed through the newly returned reference
is the STALE 7, not a freshly default-constructed value (the default is 0):
the FREE-reuse branch of `alloc` rewrites neither the key nor the value of
the recycled entry. -/
theorem C4_cex :
    (entAt 0 (dict_insert 2 0 ex2c [0, 0]).1 ((dict_insert 2 0 ex2c [0, 0]).2)).v ≠ 0 :=
  by decide

/-- C4 (amended): on the insert/remove/reinsert round trip of `[0,0]`,
`size` returns to 1 and `allocated_bytes` is unchanged across the reinsert
(the vacated entry index is reused), but the value observed through the
new reference is the stale previously assigned 7, not a default. -/
theorem C4_thm :
    dict_size (dict_insert 2 0 ex2c [0, 0]).1 = 1 ∧
    (entAt 0 (dict_insert 2 0 ex2c [0, 0]).1 ((dict_insert 2 0 ex2c [0, 0]).2)).v = 7 ∧
    ∀ esz tsz : Nat,
      allocated_bytes (dict_insert 2 0 ex2c [0, 0]).1 esz tsz =
        allocated_bytes ex2c esz tsz := by
  have h1 : (dict_insert 2 0 ex2c [0, 0]).1.m_vals.pool_size =
      ex2c.m_vals.pool_size := by decide
  have h2 : (dict_insert 2 0 ex2c [0, 0]).1.m_tabs.pool_size =
      ex2c.m_tabs.pool_size := by decide
  refine ⟨by decide, by decide, ?_⟩
  intro esz tsz
  show (dict_insert 2 0 ex2c [0, 0]).1.m_vals.pool_size * esz +
      (dict_insert 2 0 ex2c [0, 0]).1.m_tabs.pool_size * tsz =
    ex2c.m_vals.pool_size * esz + ex2c.m_tabs.pool_size * tsz
  rw [h1, h2]

/-- C5: the 8-byte two-key scenario — after inserting the all-zero key `A`
and then `B` (differing only in the last byte), `size = 2`,
`table_count = 8` (root plus seven split children, one per agreeing byte
position 1 through 7), and `prof_lookup` returns 8 for both keys. -/
theorem C5_thm :
    dict_size exAB = 2 ∧ table_count exAB = 8 ∧
    dict_prof_lookup 8 exAB keyA8 = 8 ∧ dict_prof_lookup 8 exAB keyB8 = 8 :=
  ⟨by decide, by decide, by decide, by decide⟩

/-- C6: remove semantics, for EVERY container state and key: after
`remove(k)`, `lookup(k)` reports absent; if `k` was present, `size`
decreases by exactly 1; and if `k` was absent, the whole state is
unchanged (silent no-op). -/
theorem C6_thm {ν : Type} (K : Nat) (d0v : ν) (d : Dict ν) (k : List Nat) :
    dict_lookup K d0v (dict_remove K d0v d k) k = none ∧
    ((dict_lookup K d0v d k).isSome = true →
      dict_size (dict_remove K d0v d k) = dict_size d - 1) ∧
    (dict_lookup K d0v d k = none → dict_remove K d0v d k = d) := by
  refine ⟨?_, ?_, ?_⟩
  · exact removeF_lookupF_none K d0v k K d 0 0
  · intro h
    exact removeF_size_of_present K d0v k K d 0 0 h
  · intro h
    exact removeF_noop_of_absent K d0v k K d 0 0 h

/-- C6 (witness): on `ex2b` (where `[0,0] ↦ 7`), removing the present key
`[0,0]` drops `size` by 1, and removing the absent key `[0,1]` is a no-op. -/
theorem C6_wit :
    dict_size (dict_remove 2 0 ex2b [0, 0]) = dict_size ex2b - 1 ∧
    dict_remove 2 0 ex2b [0, 1] = ex2b :=
  ⟨(C6_thm 2 0 ex2b [0, 0]).2.1 (by decide), (C6_thm 2 0 ex2b [0, 1]).2.2 (by decide)⟩

/-- C7: the strict read form as described by the spec (value of the
non-strict lookup under the precondition that the key is present) does
return the stored value — this is proved of the spec-modelled
`strict_read`, because the source member `operator()(const key_t&) const`
(dict.h:631-635) does not instantiate: it calls `lookup(key)` with one
argument while every `lookup` overload takes three. -/
theorem C7_thm {ν : Type} (K : Nat) (d0v : ν) (d : Dict ν) (k : List Nat) (v w : ν)
    (h : dict_lookup K d0v d k = some v) :
    strict_read K d0v d k w = v := by
  show (dict_lookup K d0v d k).getD w = v
  rw [h]
  rfl

/-- C7 (witness): the strict read of the present key `[0,0]` of `ex2b`. -/
theorem C7_wit : strict_read 2 0 ex2b [0, 0] 99 = 7 :=
  C7_thm 2 0 ex2b [0, 0] 7 99 (by decide)

/-- C8: bounded recursion depth — on any well-formed state and well-formed
key, every operation started at the root with fuel `K` (the key byte
length) has already reached its terminal step: giving the recursion any
fuel `f ≥ K` computes the same result, for `lookup`, `prof_lookup`,
`remove` and `lookup_or_alloc` (the whole of `insert`, including the
collision-split recursion of `alloc`). -/
theorem C8_thm {ν : Type} (K : Nat) (d0v : ν) (d : Dict ν) (pth : Nat → List Nat)
    (hwf : DictWF K d0v d pth) (k : List Nat) (hk : KeyWF K k)
    (f : Nat) (hf : K ≤ f) :
    lookupF K d0v d f 0 k 0 = lookupF K d0v d K 0 k 0 ∧
    prof_lookupF d f 0 k 0 = prof_lookupF d K 0 k 0 ∧
    removeF K d0v f d 0 k 0 = removeF K d0v K d 0 k 0 ∧
    lookup_or_allocF K d0v f d 0 k 0 = lookup_or_allocF K d0v K d 0 k 0 := by
  have hroot : 0 < d.m_tabs.size := hwf.root_live
  have hlev0 : (pth 0).length = 0 := by rw [hwf.pth_root]; rfl
  have hpt0 : pth 0 = k.take 0 := by rw [hwf.pth_root]; rfl
  have hK0 : K - 0 = K := Nat.sub_zero K
  refine ⟨?_, ?_, ?_, ?_⟩
  · have h := lookupF_stable K d0v d pth hwf k hk f 0 0 hroot hlev0 (by omega)
    rw [hK0] at h
    exact h
  · have h := prof_lookupF_stable K d0v d pth hwf k hk f 0 0 hroot hlev0 (by omega)
    rw [hK0] at h
    exact h
  · have h := removeF_stable K d0v d pth hwf k hk f 0 0 hroot hlev0 (by omega)
    rw [hK0] at h
    exact h
  · have h := (loa_main K d0v k hk f d pth 0 0 hwf hroot hpt0 hlev0 (by omega)).1
    rw [hK0] at h
    exact h

/-- C8 (witness): the four stabilization equations on the fresh dictionary
with 1-byte keys, at fuel 2. -/
theorem C8_wit :
    lookupF 1 (0 : Nat) dictNew 2 0 [0] 0 = lookupF 1 0 dictNew 1 0 [0] 0 ∧
    prof_lookupF (dictNew : Dict Nat) 2 0 [0] 0 =
      prof_lookupF (dictNew : Dict Nat) 1 0 [0] 0 ∧
    removeF 1 (0 : Nat) 2 dictNew 0 [0] 0 = removeF 1 0 1 dictNew 0 [0] 0 ∧
    lookup_or_allocF 1 (0 : Nat) 2 dictNew 0 [0] 0 =
      lookup_or_allocF 1 0 1 dictNew 0 [0] 0 := by
  obtain ⟨h1, h2, h3, h4⟩ := C8_thm 1 (0 : Nat) dictNew pth0
    (dictNew_WF 1 0 (by decide)) [0] (by decide) 2 (by omega)
  exact ⟨h1, h2, h3, h4⟩

/-- C9 (counterexample): copies are NOT observably identical to their
source under subsequent operations — the array copy constructor resets the
growth step to 1, so after the same single insert the original (growth 256)
allocates a 256-entry pool while the copy grows by 1: `allocated_bytes`
diverges (272 versus 17 at unit element sizes). -/
theorem C9_cex :
    allocated_bytes exI1 1 1 ≠ allocated_bytes exC1 1 1 ∧
    allocated_bytes exI1 1 1 = 272 ∧ allocated_bytes exC1 1 1 = 17 :=
  ⟨by decide, by decide, by decide⟩

/-- C9 (amended): copy construction and copy assignment do duplicate the
OBSERVABLE state — `size`, `table_count` and every lookup of the result
agree with the source, for copy assignment onto ANY destination whose
pools are within bounds (self-assignment is the instance `dst := d`) —
but not the allocation geometry (see the counterexample). -/
theorem C9_thm {ν : Type} (K : Nat) (d0v : ν) (d : Dict ν) (pth : Nat → List Nat)
    (hwf : DictWF K d0v d pth) (dst : Dict ν)
    (hdv : dst.m_vals.size ≤ dst.m_vals.buf.length)
    (hdt : dst.m_tabs.size ≤ dst.m_tabs.buf.length) :
    dict_size (dict_copy d0v d) = dict_size d ∧
    table_count (dict_copy d0v d) = table_count d ∧
    (∀ k2, KeyWF K k2 →
      dict_lookup K d0v (dict_copy d0v d) k2 = dict_lookup K d0v d k2) ∧
    dict_size (dict_assign d0v dst d) = dict_size d ∧
    table_count (dict_assign d0v dst d) = table_count d ∧
    (∀ k2, KeyWF K k2 →
      dict_lookup K d0v (dict_assign d0v dst d) k2 = dict_lookup K d0v d k2) := by
  obtain ⟨hvs, hvl, hvg⟩ := arr_copy_props d.m_vals (entry0 d0v) hwf.vals_size_le
  obtain ⟨hts, htl, htg⟩ := arr_copy_props d.m_tabs table0 hwf.tabs_size_le
  obtain ⟨has, hag⟩ := arr_assign_props dst.m_vals d.m_vals (entry0 d0v)
    hdv hwf.vals_size_le
  obtain ⟨hbs, hbg⟩ := arr_assign_props dst.m_tabs d.m_tabs table0
    hdt hwf.tabs_size_le
  refine ⟨rfl, hts, ?_, rfl, hbs, ?_⟩
  · intro k2 hk2
    exact lookup_frame_gen K d0v d (dict_copy d0v d) pth hwf (fun _ => True)
      (fun ti hti _ => htg ti hti)
      (fun e2 he2 => ⟨congrArg Entry.k (hvg e2 he2), congrArg Entry.v (hvg e2 he2)⟩)
      (fun _ _ _ _ _ _ => trivial)
      k2 hk2 K 0 0 hwf.root_live (by rw [hwf.pth_root]; rfl) trivial
  · intro k2 hk2
    exact lookup_frame_gen K d0v d (dict_assign d0v dst d) pth hwf (fun _ => True)
      (fun ti hti _ => hbg ti hti)
      (fun e2 he2 => ⟨congrArg Entry.k (hag e2 he2), congrArg Entry.v (hag e2 he2)⟩)
      (fun _ _ _ _ _ _ => trivial)
      k2 hk2 K 0 0 hwf.root_live (by rw [hwf.pth_root]; rfl) trivial

/-- C9 (witness): the amended statement on the fresh dictionary with
1-byte keys — copy construction, copy assignment onto the unrelated
populated destination `ex2b`, and self-assignment. -/
theorem C9_wit :
    dict_size (dict_copy 0 (dictNew : Dict Nat)) = dict_size (dictNew : Dict Nat) ∧
    dict_lookup 1 0 (dict_copy 0 (dictNew : Dict Nat)) [0] =
      dict_lookup 1 0 (dictNew : Dict Nat) [0] ∧
    dict_size (dict_assign 0 ex2b (dictNew : Dict Nat)) =
      dict_size (dictNew : Dict Nat) ∧
    dict_lookup 1 0 (dict_assign 0 ex2b (dictNew : Dict Nat)) [0] =
      dict_lookup 1 0 (dictNew : Dict Nat) [0] ∧
    dict_lookup 1 0 (dict_assign 0 (dictNew : Dict Nat) dictNew) [0] =
      dict_lookup 1 0 (dictNew : Dict Nat) [0] := by
  obtain ⟨h1, h2, h3, h4, h5, h6⟩ := C9_thm 1 (0 : Nat) dictNew pth0
    (dictNew_WF 1 0 (by decide)) ex2b (by decide) (by decide)
  obtain ⟨g1, g2, g3, g4, g5, g6⟩ := C9_thm 1 (0 : Nat) dictNew pth0
    (dictNew_WF 1 0 (by decide)) dictNew (by decide) (by decide)
  exact ⟨h1, h3 [0] (by decide), h4, h6 [0] (by decide), g6 [0] (by decide)⟩

/-- C10: insertion preserves every other present mapping — on any
well-formed state, if `k2` is present with value `v` and `k1` has a
different byte image, then after `insert(k1)` (with no write through the
returned reference) `lookup(k2)` still returns `v`; in particular the
collision split keeps the relocated occupant reachable by its own key
bytes. -/
theorem C10_thm {ν : Type} (K : Nat) (d0v : ν) (d : Dict ν) (pth : Nat → List Nat)
    (hwf : DictWF K d0v d pth) (k1 k2 : List Nat) (hk1 : KeyWF K k1) (hk2 : KeyWF K k2)
    (hne : cmp K k2 k1 = false) (v : ν)
    (hpres : dict_lookup K d0v d k2 = some v) :
    dict_lookup K d0v (dict_insert K d0v d k1).1 k2 = some v := by
  have hpt0 : pth 0 = k1.take 0 := by rw [hwf.pth_root]; rfl
  have hlev0 : (pth 0).length = 0 := by rw [hwf.pth_root]; rfl
  exact loa_lookup_frame K d0v k1 hk1 K d pth 0 0 hwf hwf.root_live hpt0 hlev0
    (by omega) k2 v K hk2 hne (by omega) hpres

/-- C10 (witness): inserting `[0,1]` into `ex2b` (where `[0,0] ↦ 7`, a
collision split on the shared first byte) leaves `lookup([0,0]) = 7`. -/
theorem C10_wit :
    dict_lookup 2 (0 : Nat) (dict_insert 2 0 ex2b [0, 1]).1 [0, 0] = some 7 :=
  C10_thm 2 0 ex2b pth0
    ⟨by decide, by decide, by decide, by decide, by decide, by decide, by decide,
      by decide, by decide, by decide, by decide, by decide, by decide⟩
    [0, 1] [0, 0] (by decide) (by decide) (by decide) 7 (by decide)

end CC0



